import Mathlib

/-!
Verification development for the translation-synchronization engine of the
payload-sync-ai-translations plugin.  The definitions below are shallow
embeddings of the TypeScript source modules:

* `src/utils/lexical.ts` — rich-text (Lexical) serialization codec;
* `src/utils/localizedFields.ts` — path reading, plain-text extraction,
  character-budget chunking;
* `src/server/stream.ts` — `setValueAtPath` and the streaming executor
  `streamTranslations`;
* `src/server/reviewPlan.ts` / `src/server/handler.ts` — the two review
  engine variants;
* `src/server/bulk.ts` — `buildLocalePlans`;
* `src/components/auto-translate-button/utils/reviewHelpers.ts` —
  `requiresHumanReview`.

JavaScript strings are modelled as Lean `String`s (lists of characters);
asynchronous service calls are modelled as explicit oracle functions, with
`Except String` capturing thrown errors.  Rich-text values are modelled by a
dedicated tree type and appear inside JSON documents as opaque leaves, since
field paths never descend into a rich-text value.
-/

namespace SyncAI

/-! ### Rich-text tree model (`src/utils/lexical.ts`)

A Lexical node is a text leaf (`type:'text'` with a string `text`), a line
break (`type:'linebreak'`), or a container with a `type` tag and ordered
children.  A Lexical value is the children list of its `type:'root'` node. -/

inductive LexNode where
  | text (s : String)
  | br
  | node (ty : String) (children : List LexNode)

mutual

def decEqLexNode : (a b : LexNode) → Decidable (a = b)
  | .text s, .text t =>
    match decEq s t with
    | isTrue h => isTrue (by rw [h])
    | isFalse h => isFalse (by intro hh; cases hh; exact h rfl)
  | .text _, .br => isFalse (by intro h; cases h)
  | .text _, .node _ _ => isFalse (by intro h; cases h)
  | .br, .text _ => isFalse (by intro h; cases h)
  | .br, .br => isTrue rfl
  | .br, .node _ _ => isFalse (by intro h; cases h)
  | .node _ _, .text _ => isFalse (by intro h; cases h)
  | .node _ _, .br => isFalse (by intro h; cases h)
  | .node ty cs, .node ty' cs' =>
    match decEq ty ty', decEqLexNodeList cs cs' with
    | isTrue h1, isTrue h2 => isTrue (by rw [h1, h2])
    | isFalse h1, _ => isFalse (by intro hh; cases hh; exact h1 rfl)
    | _, isFalse h2 => isFalse (by intro hh; cases hh; exact h2 rfl)

def decEqLexNodeList : (a b : List LexNode) → Decidable (a = b)
  | [], [] => isTrue rfl
  | [], _ :: _ => isFalse (by intro h; cases h)
  | _ :: _, [] => isFalse (by intro h; cases h)
  | x :: xs, y :: ys =>
    match decEqLexNode x y, decEqLexNodeList xs ys with
    | isTrue h1, isTrue h2 => isTrue (by rw [h1, h2])
    | isFalse h1, _ => isFalse (by intro hh; cases hh; exact h1 rfl)
    | _, isFalse h2 => isFalse (by intro hh; cases hh; exact h2 rfl)

end

instance : DecidableEq LexNode := decEqLexNode

instance : DecidableEq (List LexNode) := decEqLexNodeList

structure LexValue where
  children : List LexNode
  deriving DecidableEq

/-- Marker token `[[LEX-i]]` placed before the i-th serialized text leaf. -/
def startTok (i : Nat) : String := "[[LEX-" ++ toString i ++ "]]"

/-- Marker token `[[/LEX-i]]` placed after the i-th serialized text leaf. -/
def endTok (i : Nat) : String := "[[/LEX-" ++ toString i ++ "]]"

/-- Embedding of `createTextNode`: fallback text leaves are plain text nodes. -/
def createTextNode (s : String) : LexNode := .text s

/-- Embedding of `createParagraph`: a paragraph container with given children. -/
def createParagraph (cs : List LexNode) : LexNode := .node "paragraph" cs

mutual

/-- Embedding of `collectSerialized`: threads the accumulated output parts and
the recorded leaf addresses through a depth-first walk.  Empty text leaves are
skipped; line breaks emit a newline; list items emit a trailing newline and
top-level blocks (depth 1) a double newline when they produced output. -/
def collectSerialized : LexNode → Nat → List Nat →
    List String × List (List Nat) → List String × List (List Nat)
  | .text s, _, path, (parts, paths) =>
      if s = "" then (parts, paths)
      else (parts ++ [startTok paths.length ++ s ++ endTok paths.length],
            paths ++ [path])
  | .br, _, _, (parts, paths) => (parts ++ ["\n"], paths)
  | .node ty cs, depth, path, acc =>
      if cs.isEmpty then acc
      else
        let before := acc.1.length
        let acc2 := collectSerializedList cs depth path 0 acc
        if ty = "listitem" then (acc2.1 ++ ["\n"], acc2.2)
        else if depth = 1 ∧ before < acc2.1.length then (acc2.1 ++ ["\n\n"], acc2.2)
        else acc2

/-- Children of a node at depth `d` are visited at depth `d + 1`, each with its
index appended to the parent's address. -/
def collectSerializedList : List LexNode → Nat → List Nat → Nat →
    List String × List (List Nat) → List String × List (List Nat)
  | [], _, _, _, acc => acc
  | c :: rest, depth, path, i, acc =>
      collectSerializedList rest depth path (i + 1)
        (collectSerialized c (depth + 1) (path ++ [i]) acc)

end

/-- One pass of the regex replacement `\n{3,} → \n\n`: `k` counts the newlines
already seen in the current run; only the first two of a run are kept. -/
def collapseNewlinesGo : Nat → List Char → List Char
  | _, [] => []
  | k, c :: rest =>
      if c = '\n' then
        (if k < 2 then ['\n'] else []) ++ collapseNewlinesGo (k + 1) rest
      else c :: collapseNewlinesGo 0 rest

/-- Embedding of `text.replace(/\n{3,}/g, '\n\n')`. -/
def collapseNewlines (cs : List Char) : List Char := collapseNewlinesGo 0 cs

/-- Embedding of `text.replace(/\n+$/, '')`. -/
def stripTrailingNewlines (cs : List Char) : List Char :=
  (cs.reverse.dropWhile (fun c => c = '\n')).reverse

structure SerializedLexical where
  paths : List (List Nat)
  text : String
  deriving DecidableEq, Repr

/-- Embedding of `serializeLexicalValue`: returns `none` when the root has no
children or no text-bearing leaf was found. -/
def serializeLexicalValue (v : LexValue) : Option SerializedLexical :=
  if v.children.isEmpty then none
  else
    let acc := collectSerializedList v.children 0 [] 0 ([], [])
    if acc.2.isEmpty then none
    else
      some ⟨acc.2,
        ⟨stripTrailingNewlines (collapseNewlines (String.join acc.1).data)⟩⟩

/-! ### Placeholder extraction (the `PLACEHOLDER_PATTERN` regex)

The pattern `\[\[LEX-(\d+)\]\]([\s\S]*?)\[\[\/LEX-\1\]\]` is scanned with
`matchAll`: at each position the engine tries to read a start token whose
digits are maximal, then the lazy body runs to the first occurrence of the
matching end token; on failure the scan advances one character.  The digit
string itself (not its numeric value) is used for the backreference. -/

/-- Does `pre` occur at the start of `s`? -/
def listStartsWith : List Char → List Char → Bool
  | [], _ => true
  | _ :: _, [] => false
  | p :: ps, c :: cs => p = c && listStartsWith ps cs

/-- Drop a literal token from the front of `s`, if present. -/
def dropLiteral : List Char → List Char → Option (List Char)
  | [], s => some s
  | _ :: _, [] => none
  | p :: ps, c :: cs => if p = c then dropLiteral ps cs else none

/-- Split a leading run of decimal digits off `s`. -/
def takeDigits : List Char → List Char × List Char
  | [] => ([], [])
  | c :: cs =>
      if c.isDigit then
        let (ds, rest) := takeDigits cs
        (c :: ds, rest)
      else ([], c :: cs)

/-- Read `[[LEX-` + digits + `]]` at the start of `s`, returning the digit
string and the remainder. -/
def readStartToken (s : List Char) : Option (List Char × List Char) :=
  match dropLiteral "[[LEX-".data s with
  | none => none
  | some r =>
      let (ds, r') := takeDigits r
      if ds.isEmpty then none
      else
        match dropLiteral "]]".data r' with
        | none => none
        | some r'' => some (ds, r'')

/-- Find the first occurrence of the literal `close` in `s`; return the text
before it and the text after it. -/
def findClose (close : List Char) : List Char → Option (List Char × List Char)
  | [] => if listStartsWith close [] then some ([], []) else none
  | c :: cs =>
      if listStartsWith close (c :: cs) then
        some ([], (c :: cs).drop close.length)
      else
        match findClose close cs with
        | some (pre, post) => some (c :: pre, post)
        | none => none

/-- One `matchAll` scan over the input, fuelled by the input length: at each
position either a full match is consumed or the scan advances one character. -/
def scanMatchesGo : Nat → List Char → List (List Char × List Char)
  | 0, _ => []
  | _, [] => []
  | fuel + 1, c :: rest =>
      match readStartToken (c :: rest) with
      | some (ds, afterStart) =>
          match findClose ("[[/LEX-".data ++ ds ++ "]]".data) afterStart with
          | some (content, afterClose) => (ds, content) :: scanMatchesGo fuel afterClose
          | none => scanMatchesGo fuel rest
      | none => scanMatchesGo fuel rest

/-- All matches of the placeholder pattern, as (digit string, body) pairs. -/
def scanMatches (s : List Char) : List (List Char × List Char) :=
  scanMatchesGo s.length s

/-- Numeric value of a digit string (`Number(match[1])`). -/
def natOfDigits (ds : List Char) : Nat :=
  ds.foldl (fun a c => a * 10 + (c.toNat - '0'.toNat)) 0

/-- Embedding of `Map.set`: overwrite the value of an existing key in place,
otherwise append the new entry. -/
def mapSet (m : List (Nat × List Char)) (k : Nat) (v : List Char) :
    List (Nat × List Char) :=
  if m.any (fun p => p.1 = k) then
    m.map (fun p => if p.1 = k then (k, v) else p)
  else m ++ [(k, v)]

/-- Insertion sort of entries by key, ascending (`sort((a, b) => a[0] - b[0])`;
keys are distinct so stability is irrelevant). -/
def insertByKey (p : Nat × List Char) : List (Nat × List Char) → List (Nat × List Char)
  | [] => [p]
  | q :: qs => if p.1 ≤ q.1 then p :: q :: qs else q :: insertByKey p qs

def sortByKey : List (Nat × List Char) → List (Nat × List Char)
  | [] => []
  | p :: ps => insertByKey p (sortByKey ps)

/-- Embedding of `parsePlaceholders`.  Returns the match bodies ordered by
marker number; with an `expected` count it additionally requires exactly that
many distinct markers, numbered `0..expected-1`. -/
def parsePlaceholders (input : String) (expected : Option Nat) : Option (List String) :=
  let ms := scanMatches input.data
  if ms.isEmpty then none
  else
    let values := ms.foldl (fun m p => mapSet m (natOfDigits p.1) p.2) []
    match expected with
    | none => some ((sortByKey values).map (fun p => ⟨p.2⟩))
    | some k =>
        if values.length ≠ k then none
        else
          let ordered := sortByKey values
          if ordered.length ≠ k then none
          else if (List.range k).all (fun i => values.any (fun p => p.1 = i)) then
            some (ordered.map (fun p => ⟨p.2⟩))
          else none

/-! ### Writing a leaf and building the fallback tree -/

/-- Apply `f` to the element at position `i`, when in range. -/
def modifyNth (f : LexNode → LexNode) : List LexNode → Nat → List LexNode
  | [], _ => []
  | c :: cs, 0 => f c :: cs
  | c :: cs, i + 1 => c :: modifyNth f cs i

/-- Embedding of `setTextAtPath` (on the root's children): walk the recorded
child-index address; out-of-range steps and non-container intermediate nodes
leave the tree unchanged; a final text node gets its text replaced. -/
def setTextAtPath (cs : List LexNode) : List Nat → String → List LexNode
  | [], _ => cs
  | [i], t =>
      modifyNth (fun c => match c with
        | .text _ => .text t
        | other => other) cs i
  | i :: rest, t =>
      modifyNth (fun c => match c with
        | .node ty cc => .node ty (setTextAtPath cc rest t)
        | other => other) cs i

/-- Embedding of `String.prototype.trim`: strip leading and trailing
whitespace (space, tab, carriage return, newline). -/
def jsTrim (s : String) : String :=
  ⟨((s.data.dropWhile Char.isWhitespace).reverse.dropWhile Char.isWhitespace).reverse⟩

/-- Split on runs of two or more newlines (`split(/\n{2,}/)`), fuelled by the
input length; `cur` holds the current segment's characters in reverse. -/
def splitBlankGo : Nat → List Char → List Char → List String
  | _, [], cur => [⟨cur.reverse⟩]
  | 0, cs, cur => [⟨cur.reverse ++ cs⟩]
  | fuel + 1, c :: rest, cur =>
      if c = '\n' then
        match rest with
        | d :: _ =>
            if d = '\n' then
              (⟨cur.reverse⟩ : String) ::
                splitBlankGo fuel (rest.dropWhile (fun x => x = '\n')) []
            else splitBlankGo fuel rest (c :: cur)
        | [] => splitBlankGo fuel rest (c :: cur)
      else splitBlankGo fuel rest (c :: cur)

def splitBlankLines (s : String) : List String :=
  splitBlankGo s.data.length s.data []

/-- Embedding of `createFallbackLexical`: one paragraph per blank-line-separated
segment of the trimmed text; empty segments give empty paragraphs. -/
def createFallbackLexical (text : String) : LexValue :=
  let trimmed := jsTrim text
  let segments := if trimmed ≠ "" then (splitBlankLines trimmed).map jsTrim else [""]
  let children := segments.map (fun seg =>
    createParagraph (if seg ≠ "" then [createTextNode seg] else []))
  let children := if children.isEmpty then [createParagraph []] else children
  ⟨children⟩

/-- Write the extracted replacements over a clone of the template at the
recorded leaf addresses, in ordinal order (`serialized.paths.forEach`). -/
def applyReplacements (t : LexValue) (paths : List (List Nat)) (reps : List String) :
    LexValue :=
  ⟨(paths.enum).foldl (fun cs p => setTextAtPath cs p.2 (reps.getD p.1 "")) t.children⟩

/-- Plain text recovered when falling back: the joined match bodies if the
pattern matched at all, otherwise the raw input. -/
def fallbackPlain (text : String) : String :=
  match parsePlaceholders text none with
  | some reps => String.join reps
  | none => text

/-- Embedding of `toLexical`: with a template whose serialization succeeds and
whose marker count is matched by the input, overwrite the template's leaves;
otherwise build the paragraph-per-blank-line fallback from the plain text. -/
def toLexical (text : String) (template : Option LexValue) : LexValue :=
  match template with
  | some t =>
      match serializeLexicalValue t with
      | some ser =>
          match parsePlaceholders text (some ser.paths.length) with
          | some reps => applyReplacements t ser.paths reps
          | none => createFallbackLexical (fallbackPlain text)
      | none => createFallbackLexical (fallbackPlain text)
  | none => createFallbackLexical (fallbackPlain text)

/-! ### Shape of a rich-text tree

Two trees are "equal except for the leaf text values" exactly when erasing
every leaf text yields the same tree. -/

mutual

def eraseText : LexNode → LexNode
  | .text _ => .text ""
  | .br => .br
  | .node ty cs => .node ty (eraseTextList cs)

def eraseTextList : List LexNode → List LexNode
  | [] => []
  | c :: cs => eraseText c :: eraseTextList cs

end

/-- Does the fallback branch of `toLexical` run?  It does when no template is
given, when the template has no serializable leaf, or when placeholder
extraction on the input does not produce the template's leaf count. -/
def toLexicalFallsBack (text : String) (template : Option LexValue) : Bool :=
  match template with
  | none => true
  | some t =>
      match serializeLexicalValue t with
      | none => true
      | some ser => (parsePlaceholders text (some ser.paths.length)).isNone

def isParagraphNode : LexNode → Bool
  | .node ty _ => ty = "paragraph"
  | _ => false

/-! ### JSON-like document values

Documents are JSON-like objects.  Rich-text (Lexical) values appear as opaque
leaves: the generated field paths never descend into a rich-text value, so the
path operations treat them like scalars. -/

inductive JVal where
  | undef
  | nul
  | str (s : String)
  | lex (v : LexValue)
  | arr (xs : List JVal)
  | obj (fs : List (String × JVal))

mutual

def decEqJVal : (a b : JVal) → Decidable (a = b)
  | .undef, .undef => isTrue rfl
  | .undef, .nul => isFalse nofun
  | .undef, .str _ => isFalse nofun
  | .undef, .lex _ => isFalse nofun
  | .undef, .arr _ => isFalse nofun
  | .undef, .obj _ => isFalse nofun
  | .nul, .undef => isFalse nofun
  | .nul, .nul => isTrue rfl
  | .nul, .str _ => isFalse nofun
  | .nul, .lex _ => isFalse nofun
  | .nul, .arr _ => isFalse nofun
  | .nul, .obj _ => isFalse nofun
  | .str _, .undef => isFalse nofun
  | .str _, .nul => isFalse nofun
  | .str s, .str t =>
    match decEq s t with
    | isTrue h => isTrue (by rw [h])
    | isFalse h => isFalse (by intro hh; cases hh; exact h rfl)
  | .str _, .lex _ => isFalse nofun
  | .str _, .arr _ => isFalse nofun
  | .str _, .obj _ => isFalse nofun
  | .lex _, .undef => isFalse nofun
  | .lex _, .nul => isFalse nofun
  | .lex _, .str _ => isFalse nofun
  | .lex v, .lex w =>
    match decEq v w with
    | isTrue h => isTrue (by rw [h])
    | isFalse h => isFalse (by intro hh; cases hh; exact h rfl)
  | .lex _, .arr _ => isFalse nofun
  | .lex _, .obj _ => isFalse nofun
  | .arr _, .undef => isFalse nofun
  | .arr _, .nul => isFalse nofun
  | .arr _, .str _ => isFalse nofun
  | .arr _, .lex _ => isFalse nofun
  | .arr xs, .arr ys =>
    match decEqJValList xs ys with
    | isTrue h => isTrue (by rw [h])
    | isFalse h => isFalse (by intro hh; cases hh; exact h rfl)
  | .arr _, .obj _ => isFalse nofun
  | .obj _, .undef => isFalse nofun
  | .obj _, .nul => isFalse nofun
  | .obj _, .str _ => isFalse nofun
  | .obj _, .lex _ => isFalse nofun
  | .obj _, .arr _ => isFalse nofun
  | .obj fs, .obj gs =>
    match decEqJFields fs gs with
    | isTrue h => isTrue (by rw [h])
    | isFalse h => isFalse (by intro hh; cases hh; exact h rfl)

def decEqJValList : (a b : List JVal) → Decidable (a = b)
  | [], [] => isTrue rfl
  | [], _ :: _ => isFalse nofun
  | _ :: _, [] => isFalse nofun
  | x :: xs, y :: ys =>
    match decEqJVal x y, decEqJValList xs ys with
    | isTrue h1, isTrue h2 => isTrue (by rw [h1, h2])
    | isFalse h1, _ => isFalse (by intro hh; cases hh; exact h1 rfl)
    | _, isFalse h2 => isFalse (by intro hh; cases hh; exact h2 rfl)

def decEqJFields : (a b : List (String × JVal)) → Decidable (a = b)
  | [], [] => isTrue rfl
  | [], _ :: _ => isFalse nofun
  | _ :: _, [] => isFalse nofun
  | (k, v) :: xs, (k', v') :: ys =>
    match decEq k k', decEqJVal v v', decEqJFields xs ys with
    | isTrue h1, isTrue h2, isTrue h3 => isTrue (by rw [h1, h2, h3])
    | isFalse h1, _, _ => isFalse (by intro hh; cases hh; exact h1 rfl)
    | _, isFalse h2, _ => isFalse (by intro hh; cases hh; exact h2 rfl)
    | _, _, isFalse h3 => isFalse (by intro hh; cases hh; exact h3 rfl)

end

instance : DecidableEq JVal := decEqJVal

instance : DecidableEq (List JVal) := decEqJValList

/-- JavaScript truthiness of the values a document can hold. -/
def JVal.truthy : JVal → Bool
  | .undef => false
  | .nul => false
  | .str s => s ≠ ""
  | .lex _ => true
  | .arr _ => true
  | .obj _ => true

/-- First-match association lookup (`record[key]`); absent keys read as
`undefined`. -/
def lookupField : List (String × JVal) → String → JVal
  | [], _ => .undef
  | (k, v) :: fs, key => if k = key then v else lookupField fs key

/-- Embedding of `targetRecord[segment] = x`: overwrite the existing key in
place (object keys are unique), otherwise append the new entry. -/
def upsertField : List (String × JVal) → String → JVal → List (String × JVal)
  | [], key, v => [(key, v)]
  | (k, w) :: fs, key, v =>
      if k = key then (key, v) :: fs else (k, w) :: upsertField fs key v

/-- Embedding of `targetArray[position] = x`: beyond the current length the
array is extended with holes, which read back as `undefined`. -/
def padSet : List JVal → Nat → JVal → List JVal
  | [], 0, v => [v]
  | [], i + 1, v => .undef :: padSet [] i v
  | _ :: xs, 0, v => v :: xs
  | x :: xs, i + 1, v => x :: padSet xs i v

/-- The `/^\d+$/` test deciding whether a path segment is an array index. -/
def isIndexSeg (s : String) : Bool :=
  s ≠ "" && s.data.all Char.isDigit

/-- Split a dotted path on `.` (`path.split('.')`). -/
def splitDotGo : List Char → List Char → List String
  | [], cur => [⟨cur.reverse⟩]
  | c :: cs, cur =>
      if c = '.' then (⟨cur.reverse⟩ : String) :: splitDotGo cs []
      else splitDotGo cs (c :: cur)

def splitDot (s : String) : List String := splitDotGo s.data []

/-- Read `xs[i]`; out of bounds (including holes created by padding, which
hold `undef` already) reads `undefined`. -/
def readIdx : List JVal → Nat → JVal
  | [], _ => .undef
  | x :: _, 0 => x
  | _ :: xs, i + 1 => readIdx xs i

/-- One step of `getValueAtPath`'s reduce (from `src/utils/localizedFields.ts`):
numeric segments index arrays (out of bounds reads `undefined`), other segments
read object keys; anything else reads `undefined`. -/
def getSeg (acc : JVal) (part : String) : JVal :=
  match acc with
  | .undef => .undef
  | .nul => .undef
  | _ =>
      if isIndexSeg part then
        match acc with
        | .arr xs => readIdx xs (natOfDigits part.data)
        | _ => .undef
      else
        match acc with
        | .obj fs => lookupField fs part
        | _ => .undef

def getSegsList (v : JVal) : List String → JVal
  | [] => v
  | s :: rest => getSegsList (getSeg v s) rest

/-- Embedding of `getValueAtPath`. -/
def getValueAtPath (v : JVal) (path : String) : JVal :=
  getSegsList v (splitDot path)

/-- `Array.isArray(current) ? [...current] : []` — the working array copy. -/
def jTargetArr : JVal → List JVal
  | .arr xs => xs
  | _ => []

/-- `typeof current === 'object' && !Array.isArray(current) ? {...current} : {}`
— the working record copy (rich-text values are opaque leaves, see above). -/
def jTargetRec : JVal → List (String × JVal)
  | .obj fs => fs
  | _ => []

/-- `origArray && origArray.length > position ? origArray[position] : undefined`. -/
def jOrigElem (origBranch : JVal) (position : Nat) : JVal :=
  match origBranch with
  | .arr xs => readIdx xs position
  | _ => JVal.undef

/-- `origRecord ? origRecord[segment] : undefined`. -/
def jOrigField (origBranch : JVal) (seg : String) : JVal :=
  match origBranch with
  | .obj fs => lookupField fs seg
  | _ => JVal.undef

/-- Carry the source element's `blockType` onto a newly written array element:
only when the written value is a non-array object without a truthy `blockType`
and the source element is an object with a truthy one. -/
def carryBlockType (applied nextOrig : JVal) : JVal :=
  match applied, nextOrig with
  | .obj afs, .obj ofs =>
      if (lookupField ofs "blockType").truthy ∧
         ¬ (lookupField afs "blockType").truthy then
        JVal.obj (upsertField afs "blockType" (lookupField ofs "blockType"))
      else JVal.obj afs
  | a, _ => a

/-- Embedding of the recursive `apply` inside `setValueAtPath`
(`src/server/stream.ts`): walk the dotted path, copying the target spine,
creating arrays for index segments and records otherwise, and carry the
source element's `blockType` onto a written array element. -/
def applySegs (origBranch cur : JVal) : List String → JVal → JVal
  | [], value => value
  | seg :: rest, value =>
      if isIndexSeg seg then
        let position := natOfDigits seg.data
        .arr (padSet (jTargetArr cur) position
          (carryBlockType
            (applySegs (jOrigElem origBranch position)
              (readIdx (jTargetArr cur) position) rest value)
            (jOrigElem origBranch position)))
      else
        .obj (upsertField (jTargetRec cur) seg
          (applySegs (jOrigField origBranch seg)
            (lookupField (jTargetRec cur) seg) rest value))

/-- Embedding of `setValueAtPath`. -/
def setValueAtPath (original source : JVal) (path : String) (value : JVal) : JVal :=
  applySegs original source (splitDot path) value

/-- Two path segments denote the same accessor: index segments compare by
numeric value (`"0"` and `"00"` hit the same array slot), others as strings. -/
def segEquiv (a b : String) : Bool :=
  if isIndexSeg a ∧ isIndexSeg b then natOfDigits a.data = natOfDigits b.data
  else a = b

/-- The query path `q` diverges from the written path `segs`: at some depth
reached by both, their segments denote different accessors. -/
def offPath : List String → List String → Bool
  | s :: ss, q :: qs => !segEquiv s q || (segEquiv s q && offPath ss qs)
  | _, _ => false

/-- The target's existing spine matches the kinds demanded by the path: an
index segment must not meet an object, a key segment must not meet an array
(either coercion throws the old contents away).  Absent or scalar spine nodes
are freshly created and lose nothing. -/
def spineOk (t : JVal) : List String → Bool
  | [] => true
  | s :: ss =>
      if isIndexSeg s then
        match t with
        | .arr xs => spineOk (readIdx xs (natOfDigits s.data)) ss
        | .obj _ => false
        | _ => true
      else
        match t with
        | .obj fs => spineOk (lookupField fs s) ss
        | .arr _ => false
        | _ => true

/-- The target's array element under field `f` at position `i` does not carry
a truthy `blockType` of its own (it may be absent entirely, or the field may
not be an array). -/
def elemLacksBlockType (tgt : JVal) (f : String) (i : Nat) : Bool :=
  match readIdx (jTargetArr (lookupField (jTargetRec tgt) f)) i with
  | .obj efs => ¬ (lookupField efs "blockType").truthy
  | _ => true

/-! ### Fragments and character-budget chunking (`src/utils/localizedFields.ts`) -/

/-- A translatable fragment: concrete path, plain text, rich-text flag. -/
structure TranslatableItem where
  lexical : Bool
  path : String
  text : String
  deriving DecidableEq

def MAX_CHARS_PER_CHUNK : Nat := 3200

/-- One loop iteration of `chunkItems`: close the current batch when it is
non-empty and the new fragment would push it over the budget. -/
def chunkStep (acc : List (List TranslatableItem) × List TranslatableItem × Nat)
    (item : TranslatableItem) : List (List TranslatableItem) × List TranslatableItem × Nat :=
  let (chunks, current, total) := acc
  let length := item.text.length
  if current ≠ [] ∧ MAX_CHARS_PER_CHUNK < total + length then
    (chunks ++ [current], [item], length)
  else (chunks, current ++ [item], total + length)

/-- Embedding of `chunkItems`. -/
def chunkItems (items : List TranslatableItem) : List (List TranslatableItem) :=
  let st := items.foldl chunkStep ([], [], 0)
  if st.2.1 ≠ [] then st.1 ++ [st.2.1] else st.1

def sumLen (c : List TranslatableItem) : Nat :=
  (c.map (fun it => it.text.length)).sum

/-! ### Review result types (`src/server/types.ts`) -/

structure TranslateReviewMismatch where
  defaultText : String
  existingText : String
  index : Int
  path : String
  reason : String
  deriving DecidableEq

structure TranslateReviewSuggestion where
  index : Int
  text : String
  deriving DecidableEq

structure TranslateReviewLocale where
  code : String
  existingCount : Nat
  mismatches : List TranslateReviewMismatch
  suggestions : Option (List TranslateReviewSuggestion)
  translateIndexes : List Int
  deriving DecidableEq

/-- The client-side per-locale review state: `mismatches` and `existingCount`
are optional there (`locale.mismatches?.length ?? 0`, `locale.existingCount ?? 0`). -/
structure PendingReviewLocale where
  code : String
  existingCount : Option Nat
  mismatches : Option (List TranslateReviewMismatch)
  deriving DecidableEq

/-- Embedding of `requiresHumanReview`
(`src/components/auto-translate-button/utils/reviewHelpers.ts`); the same
predicate appears inline in `generateBulkEvents` (`src/server/bulk.ts`). -/
def requiresHumanReview (locales : List PendingReviewLocale) : Bool :=
  locales.any (fun locale =>
    0 < (locale.mismatches.getD []).length && 0 < locale.existingCount.getD 0)

/-! ### Locale plans built by the bulk orchestrator (`src/server/bulk.ts`) -/

structure LocalePlan where
  chunks : List (List TranslatableItem)
  code : String
  overrides : List TranslatableItem
  totalItems : Nat
  deriving DecidableEq

/-- `Array.from(new Set(xs))`: deduplicate keeping first occurrences. -/
def dedupGo (seen : List Int) : List Int → List Int
  | [] => []
  | x :: xs => if x ∈ seen then dedupGo seen xs else x :: dedupGo (x :: seen) xs

def dedupKeepFirst (l : List Int) : List Int := dedupGo [] l

/-- `items[i]` for a possibly negative or out-of-range JavaScript number. -/
def getAtInt (items : List TranslatableItem) (i : Int) : Option TranslatableItem :=
  if i < 0 then none else items.get? i.toNat

/-- `sanitizedIndexes`: deduplicated, bounds-checked `translateIndexes`. -/
def sanitizedIndexesOf (items : List TranslatableItem) (locale : TranslateReviewLocale) :
    List Int :=
  (dedupKeepFirst locale.translateIndexes).filter
    (fun i => 0 ≤ i ∧ i < (items.length : Int))

/-- `overrideEntries`: suggestions with an in-range index and non-empty trimmed
text, paired with the source item carrying the suggested text. -/
def overrideEntriesOf (items : List TranslatableItem) (locale : TranslateReviewLocale) :
    List (Int × TranslatableItem) :=
  (locale.suggestions.getD []).filterMap (fun s =>
    match getAtInt items s.index with
    | none => none
    | some src =>
        let text := jsTrim s.text
        if text = "" then none
        else some (s.index, { src with text := text }))

def overrideIndexesOf (items : List TranslatableItem) (locale : TranslateReviewLocale) :
    List Int :=
  (overrideEntriesOf items locale).map (fun e => e.1)

/-- `translateItems`' indexes: sanitized indexes not claimed by an override. -/
def translateIndexesOf (items : List TranslatableItem) (locale : TranslateReviewLocale) :
    List Int :=
  (sanitizedIndexesOf items locale).filter
    (fun i => i ∉ overrideIndexesOf items locale)

/-- Embedding of one entry of `buildLocalePlans`. -/
def buildLocalePlan (items : List TranslatableItem) (locale : TranslateReviewLocale) :
    LocalePlan :=
  let translateItems := (translateIndexesOf items locale).filterMap (getAtInt items)
  let overrides := (overrideEntriesOf items locale).map (fun e => e.2)
  { chunks := chunkItems translateItems
    code := locale.code
    overrides := overrides
    totalItems := translateItems.length + overrides.length }

/-- Embedding of `buildLocalePlans`: one plan per locale, dropping locales with
no work. -/
def buildLocalePlans (items : List TranslatableItem)
    (locales : List TranslateReviewLocale) : List LocalePlan :=
  (locales.map (buildLocalePlan items)).filter (fun plan => 0 < plan.totalItems)

/-! ### Plain-text extraction (`extractPlainText` in `src/utils/localizedFields.ts`) -/

mutual

/-- The `visit` walk: collect the trimmed, non-empty text of every text node. -/
def collectTrimmedTexts : LexNode → List String
  | .text s => if jsTrim s ≠ "" then [jsTrim s] else []
  | .br => []
  | .node _ cs => collectTrimmedTextsList cs

def collectTrimmedTextsList : List LexNode → List String
  | [] => []
  | c :: cs => collectTrimmedTexts c ++ collectTrimmedTextsList cs

end

/-- `collected.join(' ')`. -/
def joinWithSpace : List String → String
  | [] => ""
  | [s] => s
  | s :: rest => s ++ " " ++ joinWithSpace rest

/-- `.replace(/\s+/g, ' ')`: collapse whitespace runs to one space; `inRun`
records whether the previous character was whitespace. -/
def squashWSGo (inRun : Bool) : List Char → List Char
  | [] => []
  | c :: cs =>
      if c.isWhitespace then
        (if inRun then [] else [' ']) ++ squashWSGo true cs
      else c :: squashWSGo false cs

def squashWS (s : String) : String := jsTrim ⟨squashWSGo false s.data⟩

/-- Embedding of `extractPlainText`: trimmed strings, merged rich-text leaf
texts, `null` (here `none`) otherwise. -/
def extractPlainText (value : JVal) : Option String :=
  match value with
  | .str s => if jsTrim s ≠ "" then some (jsTrim s) else none
  | .lex lv =>
      let merged := squashWS (joinWithSpace (collectTrimmedTextsList lv.children))
      if merged ≠ "" then some merged else none
  | _ => none

/-! ### Review engines (`src/server/reviewPlan.ts` and `runTranslationReview`
in `src/server/handler.ts`)

The locale document load is abstracted to its result (`none` when the store
has no document); the classification and translation service calls are oracle
functions, with `Except String` for thrown errors. -/

structure MIInput where
  defaultText : String
  index : Int
  translatedText : String
  deriving DecidableEq

structure MIResult where
  index : Int
  missing : Bool
  reason : String
  deriving DecidableEq

structure ReviewScanState where
  translateIndexes : List Int
  existingByIndex : List (Int × String)
  aiInputs : List MIInput
  candidates : List (Int × String)
  existingCount : Nat
  deriving DecidableEq

/-- `Set.add`: append the index unless already present. -/
def addIdxSet (l : List Int) (i : Int) : List Int :=
  if i ∈ l then l else l ++ [i]

/-- The first loop of both review engines (`parsed.items.forEach`): indexes
with no existing text become translate candidates; the rest feed the
missing-information classification. -/
def reviewScan (localeDoc : Option JVal) :
    List TranslatableItem → Nat → ReviewScanState → ReviewScanState
  | [], _, st => st
  | item :: rest, idx, st =>
      let existingValue := match localeDoc with
        | some d => getValueAtPath d item.path
        | none => JVal.undef
      let existingText := (extractPlainText existingValue).getD ""
      if existingText = "" then
        reviewScan localeDoc rest (idx + 1)
          { st with
            translateIndexes := addIdxSet st.translateIndexes (idx : Int)
            candidates := st.candidates ++ [((idx : Int), item.text)] }
      else
        reviewScan localeDoc rest (idx + 1)
          { st with
            existingCount := st.existingCount + 1
            existingByIndex := st.existingByIndex ++ [((idx : Int), existingText)]
            aiInputs := st.aiInputs ++ [⟨item.text, (idx : Int), existingText⟩] }

def lookupIdx (m : List (Int × String)) (i : Int) : Option String :=
  (m.find? (fun p => p.1 = i)).map (fun p => p.2)

/-- One classification result (`for (const result of results)`): a `missing`
result adds the index to the translate set, records a mismatch, and (when the
source item exists) adds a translate candidate. -/
def detectStep (items : List TranslatableItem) (existingByIndex : List (Int × String))
    (acc : List Int × List TranslateReviewMismatch × List (Int × String))
    (res : MIResult) :
    List Int × List TranslateReviewMismatch × List (Int × String) :=
  if !res.missing then acc
  else
    let (idxs, mms, cands) := acc
    let sourceItem := getAtInt items res.index
    let mms' := mms ++ [⟨(sourceItem.map (fun it => it.text)).getD "",
      (lookupIdx existingByIndex res.index).getD "", res.index,
      (sourceItem.map (fun it => it.path)).getD "",
      (if res.reason = "" then "Missing information detected." else res.reason)⟩]
    let cands' := match sourceItem with
      | some it => cands ++ [(res.index, it.text)]
      | none => cands
    (addIdxSet idxs res.index, mms', cands')

/-- The classification phase shared by both engines: skipped when there are no
existing texts to check; a thrown classification error fails the locale. -/
def detectPhase (detect : List MIInput → Except String (List MIResult))
    (items : List TranslatableItem) (st : ReviewScanState) :
    Except String (List Int × List TranslateReviewMismatch × List (Int × String)) :=
  if st.aiInputs.isEmpty then .ok (st.translateIndexes, [], st.candidates)
  else
    match detect st.aiInputs with
    | .error e => .error e
    | .ok results =>
        .ok (results.foldl (detectStep items st.existingByIndex)
          (st.translateIndexes, [], st.candidates))

/-- Embedding of `chunkSuggestionInputs` (duplicated in both engine files):
the same character-budget grouping as `chunkItems`, on `{index, text}` pairs. -/
def chunkSuggestionStep
    (acc : List (List (Int × String)) × List (Int × String) × Nat)
    (entry : Int × String) :
    List (List (Int × String)) × List (Int × String) × Nat :=
  let (chunks, current, total) := acc
  let length := entry.2.length
  if current ≠ [] ∧ MAX_CHARS_PER_CHUNK < total + length then
    (chunks ++ [current], [entry], length)
  else (chunks, current ++ [entry], total + length)

def chunkSuggestionInputs (entries : List (Int × String)) :
    List (List (Int × String)) :=
  let st := entries.foldl chunkSuggestionStep ([], [], 0)
  if st.2.1 ≠ [] then st.1 ++ [st.2.1] else st.1

/-- Ascending insertion sort (`[...].sort((a, b) => a - b)`; the sorted inputs
are distinct, so stability is irrelevant). -/
def insertSortedInt (x : Int) : List Int → List Int
  | [] => [x]
  | y :: ys => if x ≤ y then x :: y :: ys else y :: insertSortedInt x ys

def sortIndexes : List Int → List Int
  | [] => []
  | x :: xs => insertSortedInt x (sortIndexes xs)

/-- `uniqueCandidates`: a first-occurrence-wins map from index to text. -/
def dedupPairsGo (seen : List Int) : List (Int × String) → List (Int × String)
  | [] => []
  | (i, t) :: rest =>
      if i ∈ seen then dedupPairsGo seen rest
      else (i, t) :: dedupPairsGo (i :: seen) rest

def dedupFirstPairs (l : List (Int × String)) : List (Int × String) :=
  dedupPairsGo [] l

def lookupPair (m : List (Int × String)) (i : Int) : Option String :=
  (m.find? (fun p => p.1 = i)).map (fun p => p.2)

/-- The translation loop of `generateTranslationReview` (reviewPlan variant):
per chunk, missing entries in the reply are padded with `''`; any thrown error
is caught by the caller, which discards all suggestions. -/
def translateChunksPlan (tr : List String → Except String (List String)) :
    List (List (Int × String)) → Except String (List TranslateReviewSuggestion)
  | [] => .ok []
  | ch :: rest =>
      match tr (ch.map (fun e => e.2)) with
      | .error e => .error e
      | .ok translated =>
          match translateChunksPlan tr rest with
          | .error e => .error e
          | .ok more =>
              .ok ((ch.enum.map (fun p =>
                (⟨p.2.1, translated.getD p.1 ""⟩ : TranslateReviewSuggestion))) ++ more)

/-- Embedding of `generateTranslationReview` for one target locale
(`src/server/reviewPlan.ts`): candidates are deduplicated (first wins) and
reordered by sorted index before chunking; translation errors yield an empty
suggestion list; empty-text results are kept; `suggestions` is omitted only
when empty. -/
def generateReviewLocale (detect : List MIInput → Except String (List MIResult))
    (tr : List String → Except String (List String)) (code : String)
    (localeDoc : Option JVal) (items : List TranslatableItem) :
    Except String TranslateReviewLocale :=
  let st := reviewScan localeDoc items 0 ⟨[], [], [], [], 0⟩
  match detectPhase detect items st with
  | .error e => .error e
  | .ok (idxs, mms, cands) =>
      let sortedIndexes := sortIndexes idxs
      let suggestions :=
        if cands.isEmpty then []
        else
          let unique := dedupFirstPairs cands
          let ordered := sortedIndexes.filterMap (fun i =>
            (lookupPair unique i).map (fun t => (i, t)))
          match translateChunksPlan tr (chunkSuggestionInputs ordered) with
          | .ok collected => collected
          | .error _ => []
      .ok ⟨code, st.existingCount, mms,
        (if suggestions.isEmpty then none else some suggestions), sortedIndexes⟩

/-- The translation loop of `runTranslationReview` (handler variant): a
chunk whose reply length differs from the chunk length throws, failing the
locale. -/
def translateChunksRun (tr : List String → Except String (List String)) :
    List (List (Int × String)) → Except String (List TranslateReviewSuggestion)
  | [] => .ok []
  | ch :: rest =>
      match tr (ch.map (fun e => e.2)) with
      | .error e => .error e
      | .ok translations =>
          if translations.length ≠ ch.length then
            .error ("Translator mismatch: expected " ++ toString ch.length ++
              ", received " ++ toString translations.length)
          else
            match translateChunksRun tr rest with
            | .error e => .error e
            | .ok more =>
                .ok ((ch.enum.map (fun p =>
                  (⟨p.2.1, translations.getD p.1 ""⟩ : TranslateReviewSuggestion))) ++ more)

/-- Embedding of `sanitizeSuggestions` inside `runTranslationReview`: drop
empty-trimmed texts and repeated indexes (first occurrence wins). -/
def sanitizeGo (seen : List Int) :
    List TranslateReviewSuggestion → List TranslateReviewSuggestion
  | [] => []
  | s :: rest =>
      if jsTrim s.text = "" then sanitizeGo seen rest
      else if s.index ∈ seen then sanitizeGo seen rest
      else s :: sanitizeGo (s.index :: seen) rest

def sanitizeSuggestions (l : List TranslateReviewSuggestion) :
    List TranslateReviewSuggestion :=
  sanitizeGo [] l

/-- Embedding of `runTranslationReview` for one target locale
(`src/server/handler.ts`): candidates are chunked in insertion order, a reply
length mismatch throws, and the collected suggestions are sanitized. -/
def runReviewLocale (detect : List MIInput → Except String (List MIResult))
    (tr : List String → Except String (List String)) (code : String)
    (localeDoc : Option JVal) (items : List TranslatableItem) :
    Except String TranslateReviewLocale :=
  let st := reviewScan localeDoc items 0 ⟨[], [], [], [], 0⟩
  match detectPhase detect items st with
  | .error e => .error e
  | .ok (idxs, mms, cands) =>
      let sortedIndexes := sortIndexes idxs
      match (if cands.isEmpty then Except.ok []
             else translateChunksRun tr (chunkSuggestionInputs cands)) with
      | .error e => .error e
      | .ok translateSuggestions =>
          .ok ⟨code, st.existingCount, mms,
            some (sanitizeSuggestions translateSuggestions), sortedIndexes⟩

/-! ## Streaming executor (`streamTranslations` in `src/server/stream.ts`)

The async generator is embedded as a pure function from an environment of
oracles (document fetches, the translation service, HTML conversion, the
store update) to the list of emitted events together with the list of
attempted `payload.update` calls (locale code and data).  A thrown service
error is the oracle's `Except.error` carrying the message the catch block
would extract; `yield`+`return` is modeled by an abort flag that stops the
locale fold. -/

/-- `isLexicalValue`: rich-text values are the opaque `.lex` leaves of the
document embedding. -/
def isLexicalValueJ : JVal → Bool
  | .lex _ => true
  | _ => false

/-- A missing (`null`) base document passed to `setValueAtPath`. -/
def jBase : Option JVal → JVal
  | some b => b
  | none => .nul

mutual

/-- `collectLexicalTextNodes`'s visitor on one node: text nodes contribute
their text, containers recurse into their children. -/
def collectTextsNode : LexNode → List String
  | .text s => [s]
  | .br => []
  | .node _ cs => collectTextsList cs

def collectTextsList : List LexNode → List String
  | [] => []
  | c :: cs => collectTextsNode c ++ collectTextsList cs

end

/-- Embedding of `collectLexicalTextNodes` (`src/server/lexical.ts`): the
root is never a text node, so the collection starts at its children. -/
def collectLexicalTextNodes (v : LexValue) : List String :=
  collectTextsList v.children

mutual

/-- `mapLexicalTextNodes` with the plan's updater `translated[index++] ?? ''`:
the k-th text leaf in visit order receives `reps.getD k ""`; the returned
counter is the next leaf index. -/
def mapTextsNode (reps : List String) (i : Nat) : LexNode → LexNode × Nat
  | .text _ => (.text (reps.getD i ""), i + 1)
  | .br => (.br, i)
  | .node ty cs =>
      let r := mapTextsList reps i cs
      (.node ty r.1, r.2)

def mapTextsList (reps : List String) (i : Nat) : List LexNode → List LexNode × Nat
  | [] => ([], i)
  | c :: cs =>
      let r := mapTextsNode reps i c
      let rs := mapTextsList reps r.2 cs
      (r.1 :: rs.1, rs.2)

end

/-- `translated.length ? translated.join(' ').trim() : ''` -/
def planJoinedText (translated : List String) : String :=
  if translated.isEmpty then "" else jsTrim (joinWithSpace translated)

/-- The plan fallback `if (!next) return toLexical(fallbackText); return
toLexical(next)` shared by the degenerate branches of
`createLexicalTranslationPlan`. -/
def planFallbackValue (fallbackText : String) (translated : List String) : JVal :=
  let next := planJoinedText translated
  if next = "" then .lex (toLexical fallbackText none) else .lex (toLexical next none)

/-- A translation plan: the texts sent to the translator and the value
rebuilt from the translated slice. -/
structure LexicalTranslationPlan where
  segments : List String
  apply : List String → JVal

/-- Embedding of `createLexicalTranslationPlan` (`src/server/lexical.ts`):
non-lexical or leafless values fall back to a single-segment plan; otherwise
the plan clones the value and maps the translated texts over its leaves,
degrading to the fallback when the reply length mismatches. -/
def createLexicalTranslationPlan (value : JVal) (fallbackText : String) :
    LexicalTranslationPlan :=
  match value with
  | .lex lexicalValue =>
      let segments := collectLexicalTextNodes lexicalValue
      if segments.isEmpty then
        ⟨[fallbackText], fun translated => planFallbackValue fallbackText translated⟩
      else
        ⟨segments, fun translated =>
          if translated.length ≠ segments.length then
            planFallbackValue fallbackText translated
          else
            .lex ⟨(mapTextsList translated 0 lexicalValue.children).1⟩⟩
  | _ => ⟨[fallbackText], fun translated => planFallbackValue fallbackText translated⟩

/-- The per-item plan of the chunk loop in `streamTranslations`: plain items
translate their text directly, lexical items use the base document's value at
the item path when it is rich text and otherwise re-parse the translated
string via `toLexical`. -/
def planFor (baseDoc : Option JVal) (item : TranslatableItem) : LexicalTranslationPlan :=
  if item.lexical = false then
    ⟨[item.text], fun translated => .str (translated.getD 0 item.text)⟩
  else
    let originalValue := match baseDoc with
      | some b => getValueAtPath b item.path
      | none => JVal.undef
    if isLexicalValueJ originalValue then
      createLexicalTranslationPlan originalValue item.text
    else
      ⟨[item.text], fun translated => .lex (toLexical (translated.getD 0 item.text) none)⟩

/-- A `TranslateStreamEvent`. -/
inductive Ev where
  | progress (completed : Nat) (locale : String) (total : Nat)
  | applied (locale : String)
  | error (message : String)
  | done

/-- One locale entry of the request payload. -/
structure TranslateLocaleEntry where
  chunks : List (List TranslatableItem)
  code : String
  overrides : Option (List TranslatableItem)

/-- `countItems`: total number of items over all chunks. -/
def countItems (chunks : List (List TranslatableItem)) : Nat :=
  chunks.foldl (fun total chunk => total + chunk.length) 0

/-- `countOverrides`: `Array.isArray(entries) ? entries.length : 0`. -/
def countOverrides : Option (List TranslatableItem) → Nat
  | some entries => entries.length
  | none => 0

/-- `countLocalesItems`. -/
def countLocalesItems (locales : List TranslateLocaleEntry) : Nat :=
  locales.foldl
    (fun total locale => total + countItems locale.chunks + countOverrides locale.overrides) 0

/-- The oracle environment for one run: the base-document fetch (throw or
optional document), the per-locale document fetch (`null` on throw or
non-object), the translation service, HTML-to-rich-text conversion for
overrides, and the store update. -/
structure StreamEnv where
  baseDoc : Except String (Option JVal)
  localeDoc : String → Option JVal
  translate : List String → Except String (List String)
  htmlToLex : String → LexValue
  update : String → JVal → Except String Unit

/-- The inner apply loop of one chunk: each item consumes its plan's slice of
the translated texts at the cursor and writes the resulting value (with the
defensive re-parse when a lexical item's plan produced a non-lexical value)
into the locale data via `setValueAtPath`. -/
def applyChunkGo (baseDoc : Option JVal) :
    JVal → Nat → List TranslatableItem → List String → JVal
  | localeData, _, [], _ => localeData
  | localeData, cursor, item :: rest, translated =>
      let plan := planFor baseDoc item
      let segmentCount := plan.segments.length
      let slice := (translated.drop cursor).take segmentCount
      let nextValue := plan.apply slice
      let written :=
        if item.lexical && !(isLexicalValueJ nextValue) then
          let fallbackText := if slice.isEmpty then "" else jsTrim (joinWithSpace slice)
          setValueAtPath (jBase baseDoc) localeData item.path
            (.lex (toLexical (if fallbackText = "" then item.text else fallbackText) none))
        else
          setValueAtPath (jBase baseDoc) localeData item.path nextValue
      applyChunkGo baseDoc written (cursor + segmentCount) rest translated

/-- The chunk loop of one locale: build the plans, call the translator,
abort with an `error` event on a thrown error or a reply-length mismatch,
otherwise apply the chunk and emit a `progress` event.  Returns the emitted
events, the final locale data, the completed count, and the abort flag. -/
def processChunksGo (env : StreamEnv) (baseDoc : Option JVal) (locale : String) (total : Nat) :
    JVal → Nat → List (List TranslatableItem) → List Ev × JVal × Nat × Bool
  | localeData, completed, [] => ([], localeData, completed, false)
  | localeData, completed, chunk :: rest =>
      let plans := chunk.map (planFor baseDoc)
      let texts := (plans.map (fun p => p.segments)).flatten
      match env.translate texts with
      | .error msg => ([.error msg], localeData, completed, true)
      | .ok translated =>
          if translated.length ≠ texts.length then
            ([.error ("Translator mismatch: expected " ++ toString texts.length ++
              ", received " ++ toString translated.length)], localeData, completed, true)
          else
            let localeData' := applyChunkGo baseDoc localeData 0 chunk translated
            let completed' := completed + chunk.length
            let r := processChunksGo env baseDoc locale total localeData' completed' rest
            (.progress completed' locale total :: r.1, r.2.1, r.2.2.1, r.2.2.2)

/-- The override loop of one locale: each override writes its (possibly
HTML-converted) value and emits a `progress` event. -/
def processOverridesGo (env : StreamEnv) (baseDoc : Option JVal) (locale : String) (total : Nat) :
    JVal → Nat → List TranslatableItem → List Ev × JVal × Nat
  | localeData, completed, [] => ([], localeData, completed)
  | localeData, completed, ov :: rest =>
      let nextValue : JVal := if ov.lexical then .lex (env.htmlToLex ov.text) else .str ov.text
      let localeData' := setValueAtPath (jBase baseDoc) localeData ov.path nextValue
      let r := processOverridesGo env baseDoc locale total localeData' (completed + 1) rest
      (.progress (completed + 1) locale total :: r.1, r.2.1, r.2.2)

/-- `delete id/_id/createdAt/updatedAt` on the cloned locale data. -/
def dropMeta (fs : List (String × JVal)) : List (String × JVal) :=
  fs.filter (fun p => !(p.1 == "id" || p.1 == "_id" || p.1 == "createdAt" || p.1 == "updatedAt"))

/-- Initial locale data: the cloned existing locale document (a fetched
document is a plain record; any other shape degenerates to `{}` exactly as
the array guard does) with the metadata keys removed. -/
def initLocaleData : Option JVal → JVal
  | some (.obj fs) => .obj (dropMeta fs)
  | some _ => .obj []
  | none => .obj []

/-- The tail of one locale iteration: the final shape check, the update call,
and the `applied` event; the second component records the attempted update
calls. -/
def localeFinish (env : StreamEnv) (code : String) (evs : List Ev) (ld : JVal) :
    List Ev × List (String × JVal) × Bool :=
  match ld with
  | .obj fs =>
      match env.update code (.obj fs) with
      | .error msg => (evs ++ [.error msg], [(code, .obj fs)], true)
      | .ok _ => (evs ++ [.applied code], [(code, .obj fs)], false)
  | _ => (evs ++ [.error "Translated data has unexpected shape."], [], true)

/-- One iteration of the locale loop: skip empty locales, run the chunk and
override phases, then check the shape and update the store. -/
def processLocale (env : StreamEnv) (baseDoc : Option JVal) (entry : TranslateLocaleEntry) :
    List Ev × List (String × JVal) × Bool :=
  if countItems entry.chunks + (entry.overrides.getD []).length = 0 then ([], [], false)
  else
    let total := countItems entry.chunks + (entry.overrides.getD []).length
    let rc := processChunksGo env baseDoc entry.code total
      (initLocaleData (env.localeDoc entry.code)) 0 entry.chunks
    if rc.2.2.2 then (rc.1, [], true)
    else
      let ro := processOverridesGo env baseDoc entry.code total rc.2.1 rc.2.2.1
        (entry.overrides.getD [])
      localeFinish env entry.code (rc.1 ++ ro.1) ro.2.1

/-- The locale fold: an aborting locale ends the generator. -/
def streamLocalesGo (env : StreamEnv) (baseDoc : Option JVal) :
    List TranslateLocaleEntry → List Ev × List (String × JVal) × Bool
  | [] => ([], [], false)
  | entry :: rest =>
      let r := processLocale env baseDoc entry
      if r.2.2 then r
      else
        let r2 := streamLocalesGo env baseDoc rest
        (r.1 ++ r2.1, r.2.1 ++ r2.2.1, r2.2.2)

/-- Embedding of `streamTranslations`: the emitted event list and the
attempted store updates. -/
def streamTranslations (env : StreamEnv) (locales : List TranslateLocaleEntry) :
    List Ev × List (String × JVal) :=
  if locales.isEmpty then ([.error "No target locales provided."], [])
  else if countLocalesItems locales = 0 then ([.error "No translation items provided."], [])
  else
    match env.baseDoc with
    | .error msg => ([.error msg], [])
    | .ok baseDoc =>
        let r := streamLocalesGo env baseDoc locales
        if r.2.2 then (r.1, r.2.1) else (r.1 ++ [.done], r.2.1)

/-- Whether scanning the chunks of a locale in order, the first failing
translator call is a reply-length mismatch (a thrown error aborts the run
before any later mismatch could be reached). -/
def chunksMismatch (env : StreamEnv) (baseDoc : Option JVal) :
    List (List TranslatableItem) → Bool
  | [] => false
  | chunk :: rest =>
      let texts := ((chunk.map (planFor baseDoc)).map (fun p => p.segments)).flatten
      match env.translate texts with
      | .error _ => false
      | .ok translated =>
          if translated.length ≠ texts.length then true
          else chunksMismatch env baseDoc rest

/-- The code of the locale entry at which the run hits a translator
reply-length mismatch, when it does: earlier entries are skipped when empty
and must complete without aborting. -/
def runMismatchEntry (env : StreamEnv) (baseDoc : Option JVal) :
    List TranslateLocaleEntry → Option String
  | [] => none
  | entry :: rest =>
      if countItems entry.chunks + (entry.overrides.getD []).length = 0 then
        runMismatchEntry env baseDoc rest
      else if chunksMismatch env baseDoc entry.chunks then some entry.code
      else if (processLocale env baseDoc entry).2.2 then none
      else runMismatchEntry env baseDoc rest

def isErrorEv : Ev → Bool
  | .error _ => true
  | _ => false

/-- Number of `error` events in a stream. -/
def errCount (evs : List Ev) : Nat := (evs.filter isErrorEv).length

def isAppliedFor (code : String) : Ev → Bool
  | .applied c => c == code
  | _ => false

/-- Number of `applied` events for a given locale code. -/
def appliedCount (code : String) (evs : List Ev) : Nat :=
  (evs.filter (isAppliedFor code)).length

/-- The attempted store updates for a given locale code. -/
def updatesFor (code : String) (ups : List (String × JVal)) : List (String × JVal) :=
  ups.filter (fun p => p.1 == code)

/-- Concrete environment for the mismatch scenario: the translator replies
with an empty list to a one-text batch. -/
def c1Env : StreamEnv :=
  ⟨Except.ok none, fun _ => none, fun _ => Except.ok [],
    fun _ => ⟨[]⟩, fun _ _ => Except.ok ()⟩

/-- One locale with a single one-item chunk. -/
def c1Locales : List TranslateLocaleEntry :=
  [⟨[[⟨false, "title", "Hello"⟩]], "nl", none⟩]

/-! ## Theorems -/

theorem length_eraseTextList (cs : List LexNode) :
    (eraseTextList cs).length = cs.length := by
  induction cs with
  | nil => rfl
  | cons c cs ih => simp [eraseTextList, ih]

theorem eraseTextList_modifyNth (f : LexNode → LexNode)
    (h : ∀ c, eraseText (f c) = eraseText c) :
    ∀ (cs : List LexNode) (i : Nat),
      eraseTextList (modifyNth f cs i) = eraseTextList cs := by
  intro cs
  induction cs with
  | nil => intro i; rfl
  | cons c cs ih =>
    intro i
    cases i with
    | zero => simp [modifyNth, eraseTextList, h]
    | succ j => simp [modifyNth, eraseTextList, ih]

theorem eraseTextList_setTextAtPath (p : List Nat) :
    ∀ (cs : List LexNode) (t : String),
      eraseTextList (setTextAtPath cs p t) = eraseTextList cs := by
  induction p with
  | nil => intro cs t; rfl
  | cons i p ih =>
    intro cs t
    cases p with
    | nil =>
      apply eraseTextList_modifyNth
      intro c; cases c <;> rfl
    | cons j rest =>
      apply eraseTextList_modifyNth
      intro c
      cases c with
      | text s => rfl
      | br => rfl
      | node ty cc => simp [eraseText, ih]

theorem eraseTextList_applyReplacements (t : LexValue) (paths : List (List Nat))
    (reps : List String) :
    eraseTextList (applyReplacements t paths reps).children = eraseTextList t.children := by
  unfold applyReplacements
  generalize t.children = cs
  generalize paths.enum = ps
  induction ps generalizing cs with
  | nil => rfl
  | cons p ps ih =>
    simp only [List.foldl_cons]
    rw [ih, eraseTextList_setTextAtPath]

/-- C2 (amended): for every rich-text tree whose serialization succeeds and for
which placeholder extraction on the serialized text recovers exactly the
tree's leaf count, `toLexical` run on the serialized text against the original
tree yields a tree equal to the original except for the leaf text values. -/
theorem lexicalRoundTripPreservesShape (t : LexValue) (ser : SerializedLexical)
    (reps : List String)
    (hser : serializeLexicalValue t = some ser)
    (hparse : parsePlaceholders ser.text (some ser.paths.length) = some reps) :
    eraseTextList (toLexical ser.text (some t)).children = eraseTextList t.children := by
  have he : toLexical ser.text (some t) = applyReplacements t ser.paths reps := by
    simp only [toLexical, hser, hparse]
  rw [he]
  exact eraseTextList_applyReplacements t ser.paths reps

/-- Witness for C2: a one-paragraph, one-leaf tree serializes to
`[[LEX-0]]Hello[[/LEX-0]]`, extraction recovers the single segment, and the
round trip preserves the shape. -/
theorem lexicalRoundTripPreservesShape_witness :
    serializeLexicalValue ⟨[.node "paragraph" [.text "Hello"]]⟩ =
      some ⟨[[0, 0]], "[[LEX-0]]Hello[[/LEX-0]]"⟩ ∧
    parsePlaceholders "[[LEX-0]]Hello[[/LEX-0]]" (some 1) = some ["Hello"] ∧
    eraseTextList (toLexical "[[LEX-0]]Hello[[/LEX-0]]"
        (some ⟨[.node "paragraph" [.text "Hello"]]⟩)).children =
      eraseTextList [.node "paragraph" [.text "Hello"]] :=
  ⟨by decide, by decide,
    lexicalRoundTripPreservesShape ⟨[.node "paragraph" [.text "Hello"]]⟩
      ⟨[[0, 0]], "[[LEX-0]]Hello[[/LEX-0]]"⟩ ["Hello"] (by decide) (by decide)⟩

/-- Counterexample to C2 as stated: when a leaf's text itself contains marker
tokens, extraction on the serialized text finds three markers for two leaves,
`toLexical` falls back to the flattening branch, and the resulting tree does
not have the original shape. -/
theorem lexicalRoundTrip_counterexample :
    serializeLexicalValue
        ⟨[.node "paragraph"
            [.text "a[[/LEX-0]][[LEX-9]]b[[/LEX-9]]c", .text "z"]]⟩ =
      some ⟨[[0, 0], [0, 1]],
        "[[LEX-0]]a[[/LEX-0]][[LEX-9]]b[[/LEX-9]]c[[/LEX-0]][[LEX-1]]z[[/LEX-1]]"⟩ ∧
    eraseTextList (toLexical
        "[[LEX-0]]a[[/LEX-0]][[LEX-9]]b[[/LEX-9]]c[[/LEX-0]][[LEX-1]]z[[/LEX-1]]"
        (some ⟨[.node "paragraph"
            [.text "a[[/LEX-0]][[LEX-9]]b[[/LEX-9]]c", .text "z"]]⟩)).children ≠
      eraseTextList [.node "paragraph"
          [.text "a[[/LEX-0]][[LEX-9]]b[[/LEX-9]]c", .text "z"]] :=
  ⟨by decide, by decide⟩

section ToLexicalTotal

theorem fallbackGuard_ne_nil (l : List LexNode) :
    (if l.isEmpty then [createParagraph []] else l) ≠ [] := by
  split
  · simp
  · next h =>
    cases l with
    | nil => simp at h
    | cons c cs => simp

theorem fallbackGuard_all_paragraph (l : List LexNode)
    (h : l.all isParagraphNode = true) :
    (if l.isEmpty then [createParagraph []] else l).all isParagraphNode = true := by
  split
  · simp [isParagraphNode, createParagraph]
  · exact h

theorem createFallbackLexical_children_ne_nil (s : String) :
    (createFallbackLexical s).children ≠ [] := by
  unfold createFallbackLexical
  dsimp only
  exact fallbackGuard_ne_nil _

theorem createFallbackLexical_all_paragraph (s : String) :
    (createFallbackLexical s).children.all isParagraphNode = true := by
  unfold createFallbackLexical
  dsimp only
  apply fallbackGuard_all_paragraph
  rw [List.all_eq_true]
  intro x hx
  rw [List.mem_map] at hx
  obtain ⟨seg, _, rfl⟩ := hx
  simp [isParagraphNode, createParagraph]

theorem serializeLexicalValue_children_ne_nil (t : LexValue) (ser : SerializedLexical)
    (h : serializeLexicalValue t = some ser) : t.children ≠ [] := by
  intro hc
  unfold serializeLexicalValue at h
  rw [hc] at h
  simp at h

/-- C9 (amended): `toLexical` always returns a root with at least one child,
and whenever the fallback branch runs (extraction failure, marker-count
mismatch, template without serializable leaves, or no template) the result is
the paragraph-per-blank-line tree built from the plain text, all of whose
children are paragraphs. -/
theorem toLexical_total_wellFormed (text : String) (template : Option LexValue) :
    (toLexical text template).children ≠ [] ∧
    (toLexicalFallsBack text template = true →
      toLexical text template = createFallbackLexical (fallbackPlain text) ∧
      (toLexical text template).children.all isParagraphNode = true) := by
  cases template with
  | none =>
    exact ⟨createFallbackLexical_children_ne_nil _,
      fun _ => ⟨rfl, createFallbackLexical_all_paragraph _⟩⟩
  | some t =>
    cases hser : serializeLexicalValue t with
    | none =>
      have he : toLexical text (some t) = createFallbackLexical (fallbackPlain text) := by
        simp only [toLexical, hser]
      rw [he]
      exact ⟨createFallbackLexical_children_ne_nil _,
        fun _ => ⟨rfl, createFallbackLexical_all_paragraph _⟩⟩
    | some ser =>
      cases hparse : parsePlaceholders text (some ser.paths.length) with
      | none =>
        have he : toLexical text (some t) = createFallbackLexical (fallbackPlain text) := by
          simp only [toLexical, hser, hparse]
        rw [he]
        exact ⟨createFallbackLexical_children_ne_nil _,
          fun _ => ⟨rfl, createFallbackLexical_all_paragraph _⟩⟩
      | some reps =>
        have he : toLexical text (some t) = applyReplacements t ser.paths reps := by
          simp only [toLexical, hser, hparse]
        have hfb : toLexicalFallsBack text (some t) = false := by
          simp only [toLexicalFallsBack, hser, hparse, Option.isNone]
        rw [he, hfb]
        refine ⟨?_, by simp⟩
        intro hc
        have hlen := eraseTextList_applyReplacements t ser.paths reps
        rw [hc] at hlen
        have : t.children.length = 0 := by
          have h1 := length_eraseTextList t.children
          rw [← hlen] at h1
          simpa [eraseTextList] using h1.symm
        exact serializeLexicalValue_children_ne_nil t ser hser
          (List.length_eq_zero.mp this)

end ToLexicalTotal

/-- Witness for C9: with no template the fallback condition holds and the
conclusion follows from the theorem. -/
theorem toLexical_total_wellFormed_witness :
    (toLexical "x" none).children ≠ [] ∧
    toLexical "x" none = createFallbackLexical (fallbackPlain "x") ∧
    (toLexical "x" none).children.all isParagraphNode = true :=
  ⟨(toLexical_total_wellFormed "x" none).1,
    ((toLexical_total_wellFormed "x" none).2 rfl).1,
    ((toLexical_total_wellFormed "x" none).2 rfl).2⟩

/-- Counterexample to C9 as stated: a template whose only top-level block is a
heading round-trips to a tree with no paragraph child at all, so "a root node
with at least one paragraph child" fails on the structure-preserving branch. -/
theorem toLexical_paragraph_counterexample :
    serializeLexicalValue ⟨[.node "heading" [.text "Hi"]]⟩ =
      some ⟨[[0, 0]], "[[LEX-0]]Hi[[/LEX-0]]"⟩ ∧
    (toLexical "[[LEX-0]]Hi[[/LEX-0]]"
        (some ⟨[.node "heading" [.text "Hi"]]⟩)).children.any isParagraphNode = false :=
  ⟨by decide, by decide⟩

/-! ### Association-list and array-write lemmas -/

theorem lookupField_upsert_self (fs : List (String × JVal)) (k : String) (v : JVal) :
    lookupField (upsertField fs k v) k = v := by
  induction fs with
  | nil => simp [upsertField, lookupField]
  | cons p ps ih =>
    obtain ⟨pk, pv⟩ := p
    by_cases hp : pk = k
    · simp [upsertField, hp, lookupField]
    · simp [upsertField, hp, lookupField, ih]

theorem lookupField_upsert_ne (fs : List (String × JVal)) (k k' : String) (v : JVal)
    (h : k' ≠ k) : lookupField (upsertField fs k v) k' = lookupField fs k' := by
  induction fs with
  | nil =>
    simp only [upsertField, lookupField]
    rw [if_neg (fun hh => h hh.symm)]
  | cons p ps ih =>
    obtain ⟨pk, pv⟩ := p
    by_cases hp : pk = k
    · subst hp
      simp only [upsertField, if_pos rfl, lookupField]
      rw [if_neg (fun hh => h hh.symm), if_neg (fun hh => h hh.symm)]
    · simp only [upsertField, if_neg hp, lookupField]
      split <;> [rfl; exact ih]

theorem readIdx_padSet_self (xs : List JVal) (i : Nat) (v : JVal) :
    readIdx (padSet xs i v) i = v := by
  induction xs generalizing i with
  | nil =>
    induction i with
    | zero => rfl
    | succ j ih => simpa [padSet, readIdx] using ih
  | cons x xs ih =>
    cases i with
    | zero => rfl
    | succ j => simpa [padSet, readIdx] using ih j

theorem readIdx_padSet_ne (xs : List JVal) (i j : Nat) (v : JVal) (h : j ≠ i) :
    readIdx (padSet xs i v) j = readIdx xs j := by
  induction xs generalizing i j with
  | nil =>
    induction i generalizing j with
    | zero =>
      cases j with
      | zero => exact absurd rfl h
      | succ j' => simp [padSet, readIdx]
    | succ i' ih =>
      cases j with
      | zero => rfl
      | succ j' => simpa [padSet, readIdx] using ih j' (fun hh => h (by rw [hh]))
  | cons x xs ih =>
    cases i with
    | zero =>
      cases j with
      | zero => exact absurd rfl h
      | succ j' => simp [padSet, readIdx]
    | succ i' =>
      cases j with
      | zero => rfl
      | succ j' => simpa [padSet, readIdx] using ih i' j' (fun hh => h (by rw [hh]))

/-! ### `getSeg` computation lemmas -/

theorem getSeg_obj_of_key (fs : List (String × JVal)) (s : String)
    (hs : isIndexSeg s = false) : getSeg (.obj fs) s = lookupField fs s := by
  simp [getSeg, hs]

theorem getSeg_obj_of_index (fs : List (String × JVal)) (s : String)
    (hs : isIndexSeg s = true) : getSeg (.obj fs) s = .undef := by
  simp [getSeg, hs]

theorem getSeg_arr_of_index (xs : List JVal) (s : String)
    (hs : isIndexSeg s = true) :
    getSeg (.arr xs) s = readIdx xs (natOfDigits s.data) := by
  simp [getSeg, hs]

theorem getSeg_arr_of_key (xs : List JVal) (s : String)
    (hs : isIndexSeg s = false) : getSeg (.arr xs) s = .undef := by
  simp [getSeg, hs]

theorem getSeg_undef (s : String) : getSeg .undef s = .undef := rfl

theorem getSeg_nul (s : String) : getSeg .nul s = .undef := rfl

theorem getSeg_str (t s : String) : getSeg (.str t) s = .undef := by
  unfold getSeg
  split <;> first | rfl | (split <;> rfl)

theorem getSeg_lex (lv : LexValue) (s : String) : getSeg (.lex lv) s = .undef := by
  unfold getSeg
  split <;> first | rfl | (split <;> rfl)

/-! ### `applySegs` unfolding lemmas -/

theorem applySegs_cons_index (origBranch cur : JVal) (seg : String)
    (rest : List String) (value : JVal) (hs : isIndexSeg seg = true) :
    applySegs origBranch cur (seg :: rest) value =
      .arr (padSet (jTargetArr cur) (natOfDigits seg.data)
        (carryBlockType
          (applySegs (jOrigElem origBranch (natOfDigits seg.data))
            (readIdx (jTargetArr cur) (natOfDigits seg.data)) rest value)
          (jOrigElem origBranch (natOfDigits seg.data)))) := by
  simp [applySegs, hs]

theorem applySegs_cons_key (origBranch cur : JVal) (seg : String)
    (rest : List String) (value : JVal) (hs : isIndexSeg seg = false) :
    applySegs origBranch cur (seg :: rest) value =
      .obj (upsertField (jTargetRec cur) seg
        (applySegs (jOrigField origBranch seg)
          (lookupField (jTargetRec cur) seg) rest value)) := by
  simp [applySegs, hs]

/-- Reads through `carryBlockType` at any accessor other than `blockType` are
unchanged. -/
theorem getSeg_carryBlockType (applied nextOrig : JVal) (s : String)
    (h : s ≠ "blockType") :
    getSeg (carryBlockType applied nextOrig) s = getSeg applied s := by
  cases applied <;> cases nextOrig <;> (try rfl)
  next afs ofs =>
    simp only [carryBlockType]
    split
    · cases hidx : isIndexSeg s with
      | true => rw [getSeg_obj_of_index _ _ hidx, getSeg_obj_of_index _ _ hidx]
      | false =>
        rw [getSeg_obj_of_key _ _ hidx, getSeg_obj_of_key _ _ hidx,
          lookupField_upsert_ne _ _ _ _ h]
    · rfl

theorem spineOk_undef (ss : List String) : spineOk .undef ss = true := by
  cases ss with
  | nil => rfl
  | cons s ss => unfold spineOk; split <;> rfl

theorem getSegsList_cons (v : JVal) (a : String) (l : List String) :
    getSegsList v (a :: l) = getSegsList (getSeg v a) l := rfl

/-- When the target is not an object, reading it behaves like reading its
working array copy. -/
theorem getSeg_jTargetArr (tgt : JVal) (qh : String)
    (hnotobj : ∀ fs, tgt ≠ JVal.obj fs) :
    getSeg (.arr (jTargetArr tgt)) qh = getSeg tgt qh := by
  cases tgt with
  | arr xs => rfl
  | obj fs => exact absurd rfl (hnotobj fs)
  | undef => cases hq : isIndexSeg qh <;>
      simp [getSeg_arr_of_key, getSeg_arr_of_index, hq, jTargetArr, readIdx, getSeg_undef]
  | nul => cases hq : isIndexSeg qh <;>
      simp [getSeg_arr_of_key, getSeg_arr_of_index, hq, jTargetArr, readIdx, getSeg_nul]
  | str t => cases hq : isIndexSeg qh <;>
      simp [getSeg_arr_of_key, getSeg_arr_of_index, hq, jTargetArr, readIdx, getSeg_str]
  | lex lv => cases hq : isIndexSeg qh <;>
      simp [getSeg_arr_of_key, getSeg_arr_of_index, hq, jTargetArr, readIdx, getSeg_lex]

/-- When the target is not an array, reading it behaves like reading its
working record copy. -/
theorem getSeg_jTargetRec (tgt : JVal) (qh : String)
    (hnotarr : ∀ xs, tgt ≠ JVal.arr xs) :
    getSeg (.obj (jTargetRec tgt)) qh = getSeg tgt qh := by
  cases tgt with
  | obj fs => rfl
  | arr xs => exact absurd rfl (hnotarr xs)
  | undef => cases hq : isIndexSeg qh <;>
      simp [getSeg_obj_of_key, getSeg_obj_of_index, hq, jTargetRec, lookupField, getSeg_undef]
  | nul => cases hq : isIndexSeg qh <;>
      simp [getSeg_obj_of_key, getSeg_obj_of_index, hq, jTargetRec, lookupField, getSeg_nul]
  | str t => cases hq : isIndexSeg qh <;>
      simp [getSeg_obj_of_key, getSeg_obj_of_index, hq, jTargetRec, lookupField, getSeg_str]
  | lex lv => cases hq : isIndexSeg qh <;>
      simp [getSeg_obj_of_key, getSeg_obj_of_index, hq, jTargetRec, lookupField, getSeg_lex]

theorem getSeg_arr_padSet_other (xs : List JVal) (pos : Nat) (w : JVal) (qh : String)
    (h : isIndexSeg qh = true → natOfDigits qh.data ≠ pos) :
    getSeg (.arr (padSet xs pos w)) qh = getSeg (.arr xs) qh := by
  cases hq : isIndexSeg qh
  · rw [getSeg_arr_of_key _ _ hq, getSeg_arr_of_key _ _ hq]
  · rw [getSeg_arr_of_index _ _ hq, getSeg_arr_of_index _ _ hq,
      readIdx_padSet_ne _ _ _ _ (h hq)]

theorem getSeg_obj_upsert_other (fs : List (String × JVal)) (s : String) (w : JVal)
    (qh : String) (h : qh ≠ s) :
    getSeg (.obj (upsertField fs s w)) qh = getSeg (.obj fs) qh := by
  cases hq : isIndexSeg qh
  · rw [getSeg_obj_of_key _ _ hq, getSeg_obj_of_key _ _ hq,
      lookupField_upsert_ne _ _ _ _ h]
  · rw [getSeg_obj_of_index _ _ hq, getSeg_obj_of_index _ _ hq]

theorem spine_step_index (tgt : JVal) (s : String) (ss : List String)
    (hidx : isIndexSeg s = true) (hsp : spineOk tgt (s :: ss) = true) :
    (∀ fs, tgt ≠ JVal.obj fs) ∧
    spineOk (readIdx (jTargetArr tgt) (natOfDigits s.data)) ss = true := by
  cases tgt with
  | obj fs => simp [spineOk, hidx] at hsp
  | arr xs =>
    refine ⟨fun fs h => JVal.noConfusion h, ?_⟩
    simpa [spineOk, hidx] using hsp
  | undef =>
    refine ⟨fun fs h => JVal.noConfusion h, ?_⟩
    simp [jTargetArr, readIdx, spineOk_undef]
  | nul =>
    refine ⟨fun fs h => JVal.noConfusion h, ?_⟩
    simp [jTargetArr, readIdx, spineOk_undef]
  | str t =>
    refine ⟨fun fs h => JVal.noConfusion h, ?_⟩
    simp [jTargetArr, readIdx, spineOk_undef]
  | lex lv =>
    refine ⟨fun fs h => JVal.noConfusion h, ?_⟩
    simp [jTargetArr, readIdx, spineOk_undef]

theorem spine_step_key (tgt : JVal) (s : String) (ss : List String)
    (hidx : isIndexSeg s = false) (hsp : spineOk tgt (s :: ss) = true) :
    (∀ xs, tgt ≠ JVal.arr xs) ∧
    spineOk (lookupField (jTargetRec tgt) s) ss = true := by
  cases tgt with
  | arr xs => simp [spineOk, hidx] at hsp
  | obj fs =>
    refine ⟨fun xs h => JVal.noConfusion h, ?_⟩
    simpa [spineOk, hidx] using hsp
  | undef =>
    refine ⟨fun xs h => JVal.noConfusion h, ?_⟩
    simp [jTargetRec, lookupField, spineOk_undef]
  | nul =>
    refine ⟨fun xs h => JVal.noConfusion h, ?_⟩
    simp [jTargetRec, lookupField, spineOk_undef]
  | str t =>
    refine ⟨fun xs h => JVal.noConfusion h, ?_⟩
    simp [jTargetRec, lookupField, spineOk_undef]
  | lex lv =>
    refine ⟨fun xs h => JVal.noConfusion h, ?_⟩
    simp [jTargetRec, lookupField, spineOk_undef]

theorem segEquiv_true_index (s qh : String) (hidx : isIndexSeg s = true)
    (heq : segEquiv s qh = true) :
    isIndexSeg qh = true ∧ natOfDigits qh.data = natOfDigits s.data := by
  by_cases hq : isIndexSeg qh = true
  · refine ⟨hq, ?_⟩
    unfold segEquiv at heq
    rw [if_pos ⟨hidx, hq⟩] at heq
    have h' : natOfDigits s.data = natOfDigits qh.data := by simpa using heq
    exact h'.symm
  · exfalso
    unfold segEquiv at heq
    rw [if_neg (fun hh => hq hh.2)] at heq
    have h' : s = qh := by simpa using heq
    rw [h'] at hidx
    exact hq hidx

theorem segEquiv_true_key (s qh : String) (hidx : isIndexSeg s = false)
    (heq : segEquiv s qh = true) : qh = s := by
  unfold segEquiv at heq
  rw [if_neg (fun hh => by rw [hidx] at hh; exact Bool.false_ne_true hh.1)] at heq
  have h' : s = qh := by simpa using heq
  exact h'.symm

theorem segEquiv_false_index (s qh : String) (hidx : isIndexSeg s = true)
    (heq : segEquiv s qh = false) :
    isIndexSeg qh = true → natOfDigits qh.data ≠ natOfDigits s.data := by
  intro hq
  unfold segEquiv at heq
  rw [if_pos ⟨hidx, hq⟩] at heq
  exact fun hh => by simp [hh] at heq

/-- C10 (amended), core form: a write at `segs` leaves every off-path accessor
reading exactly what it read in the target, provided the target's spine kinds
match the path (no array-vs-record coercion along the spine) and the query
avoids the `blockType` key that the write may fill in on array elements. -/
theorem applySegs_frame (segs : List String) :
    ∀ (q : List String) (orig tgt v : JVal),
      spineOk tgt segs = true → offPath segs q = true → "blockType" ∉ q →
      getSegsList (applySegs orig tgt segs v) q = getSegsList tgt q := by
  induction segs with
  | nil => intro q orig tgt v _ hoff _; simp [offPath] at hoff
  | cons s ss ih =>
    intro q orig tgt v hsp hoff hbt
    cases q with
    | nil => simp [offPath] at hoff
    | cons qh qt =>
      have hoffeq : (!segEquiv s qh || (segEquiv s qh && offPath ss qt)) = true := hoff
      by_cases hidx : isIndexSeg s = true
      · obtain ⟨hnotobj, hsp'⟩ := spine_step_index tgt s ss hidx hsp
        rw [applySegs_cons_index _ _ _ _ _ hidx]
        cases heq : segEquiv s qh with
        | false =>
          rw [getSegsList_cons, getSegsList_cons,
            getSeg_arr_padSet_other _ _ _ _
              (fun hq => segEquiv_false_index s qh hidx heq hq),
            getSeg_jTargetArr tgt qh hnotobj]
        | true =>
          obtain ⟨hqidx, hqpos⟩ := segEquiv_true_index s qh hidx heq
          have hoff' : offPath ss qt = true := by
            rw [heq] at hoffeq; simpa using hoffeq
          have hbt' : "blockType" ∉ qt := fun hh => hbt (List.mem_cons_of_mem _ hh)
          cases qt with
          | nil => simp [offPath] at hoff'
          | cons qh' qt' =>
            have hbth' : qh' ≠ "blockType" :=
              fun hh => hbt' (hh ▸ List.mem_cons_self _ _)
            rw [getSegsList_cons, getSeg_arr_of_index _ _ hqidx, hqpos,
              readIdx_padSet_self, getSegsList_cons,
              getSeg_carryBlockType _ _ _ hbth', ← getSegsList_cons,
              ih (qh' :: qt') _ _ v hsp' hoff' hbt']
            conv_rhs => rw [getSegsList_cons]
            rw [← getSeg_jTargetArr tgt qh hnotobj,
              getSeg_arr_of_index _ _ hqidx, hqpos]
      · have hidx' : isIndexSeg s = false := by
          cases hh : isIndexSeg s; rfl; exact absurd hh hidx
        obtain ⟨hnotarr, hsp'⟩ := spine_step_key tgt s ss hidx' hsp
        rw [applySegs_cons_key _ _ _ _ _ hidx']
        cases heq : segEquiv s qh with
        | false =>
          have hne : qh ≠ s := by
            intro hh
            rw [hh] at heq
            simp [segEquiv] at heq
          rw [getSegsList_cons, getSegsList_cons,
            getSeg_obj_upsert_other _ _ _ _ hne,
            getSeg_jTargetRec tgt qh hnotarr]
        | true =>
          have hq : qh = s := segEquiv_true_key s qh hidx' heq
          subst hq
          have hoff' : offPath ss qt = true := by
            rw [heq] at hoffeq; simpa using hoffeq
          have hbt' : "blockType" ∉ qt := fun hh => hbt (List.mem_cons_of_mem _ hh)
          rw [getSegsList_cons, getSeg_obj_of_key _ _ hidx',
            lookupField_upsert_self,
            ih qt _ _ v hsp' hoff' hbt', getSegsList_cons,
            ← getSeg_jTargetRec tgt qh hnotarr, getSeg_obj_of_key _ _ hidx']

/-- C10 (amended): a `setValueAtPath` write changes no key or array index off
the written path, provided the target's values along the path spine are of the
kind the path demands (object for key segments, array for index segments)
where present, and the query does not pass through a `blockType` key (which
the write may fill in from the source structure on array elements along the
path).  Neither argument is mutated: the embedding is pure and the result is
freshly assembled. -/
theorem setValueAtPath_frame (orig tgt value : JVal) (path query : String)
    (hsp : spineOk tgt (splitDot path) = true)
    (hoff : offPath (splitDot path) (splitDot query) = true)
    (hbt : "blockType" ∉ splitDot query) :
    getValueAtPath (setValueAtPath orig tgt path value) query =
      getValueAtPath tgt query :=
  applySegs_frame (splitDot path) (splitDot query) orig tgt value hsp hoff hbt

/-- Witness for C10: writing `a.b` into `{a: {x: "1"}}` leaves `a.x` reading
its old value. -/
theorem setValueAtPath_frame_witness :
    spineOk (JVal.obj [("a", .obj [("x", .str "1")])]) (splitDot "a.b") = true ∧
    offPath (splitDot "a.b") (splitDot "a.x") = true ∧
    "blockType" ∉ splitDot "a.x" ∧
    getValueAtPath
        (setValueAtPath .nul (JVal.obj [("a", .obj [("x", .str "1")])]) "a.b" (.str "v"))
        "a.x" =
      getValueAtPath (JVal.obj [("a", .obj [("x", .str "1")])]) "a.x" :=
  ⟨by decide, by decide, by decide,
    setValueAtPath_frame .nul (JVal.obj [("a", .obj [("x", .str "1")])]) (.str "v")
      "a.b" "a.x" (by decide) (by decide) (by decide)⟩

/-- Counterexample to C10 as stated: writing `a.b` into a target whose `a` is
an array replaces the array by a record, so the off-path index `a.0` loses its
old value. -/
theorem setValueAtPath_frame_counterexample :
    offPath (splitDot "a.b") (splitDot "a.0") = true ∧
    getValueAtPath (JVal.obj [("a", .arr [.str "x"])]) "a.0" = .str "x" ∧
    getValueAtPath
        (setValueAtPath .nul (JVal.obj [("a", .arr [.str "x"])]) "a.b" (.str "v"))
        "a.0" = .undef :=
  ⟨by decide, by decide, by decide⟩

/-! ### Block discriminator preservation (C3) -/

theorem jOrigField_eq_getSeg (orig : JVal) (f : String) (hf : isIndexSeg f = false) :
    jOrigField orig f = getSeg orig f := by
  cases orig with
  | obj fs => rw [getSeg_obj_of_key _ _ hf]; rfl
  | arr xs => rw [getSeg_arr_of_key _ _ hf]; rfl
  | undef => rfl
  | nul => rfl
  | str t => rw [getSeg_str]; rfl
  | lex lv => rw [getSeg_lex]; rfl

theorem jOrigElem_eq_getSeg (w : JVal) (seg : String) (hseg : isIndexSeg seg = true) :
    jOrigElem w (natOfDigits seg.data) = getSeg w seg := by
  cases w with
  | arr xs => rw [getSeg_arr_of_index _ _ hseg]; rfl
  | obj fs => rw [getSeg_obj_of_index _ _ hseg]; rfl
  | undef => rfl
  | nul => rfl
  | str t => rw [getSeg_str]; rfl
  | lex lv => rw [getSeg_lex]; rfl

/-- Unpack `elemLacksBlockType` into a statement about the record the write
will extend: that record has no truthy `blockType`. -/
theorem elemLacksBlockType_spec (tgt : JVal) (f : String) (pos : Nat)
    (htgt : elemLacksBlockType tgt f pos = true) :
    (lookupField (jTargetRec (readIdx (jTargetArr (lookupField (jTargetRec tgt) f)) pos))
      "blockType").truthy = false := by
  unfold elemLacksBlockType at htgt
  cases hel : readIdx (jTargetArr (lookupField (jTargetRec tgt) f)) pos with
  | obj efs =>
    rw [hel] at htgt
    simpa [jTargetRec] using htgt
  | undef => simp [jTargetRec, lookupField, JVal.truthy]
  | nul => simp [jTargetRec, lookupField, JVal.truthy]
  | str t => simp [jTargetRec, lookupField, JVal.truthy]
  | lex lv => simp [jTargetRec, lookupField, JVal.truthy]
  | arr ys => simp [jTargetRec, lookupField, JVal.truthy]

/-- C3 (amended): writing a translated value at `f.i.g` (a non-discriminator
field of a tagged-union array element) into a locale document whose element at
`f.i` does not itself carry a truthy `blockType` produces an element carrying
the source element's `blockType` alongside the written field. -/
theorem setValueAtPath_preserves_blockType (f seg g : String)
    (orig tgt value : JVal) (oe : List (String × JVal))
    (hf : isIndexSeg f = false) (hseg : isIndexSeg seg = true)
    (hg : isIndexSeg g = false) (hgb : g ≠ "blockType")
    (horig : getSegsList orig [f, seg] = .obj oe)
    (hbt : (lookupField oe "blockType").truthy = true)
    (htgt : elemLacksBlockType tgt f (natOfDigits seg.data) = true) :
    getSegsList (applySegs orig tgt [f, seg, g] value) [f, seg, "blockType"] =
      lookupField oe "blockType" ∧
    getSegsList (applySegs orig tgt [f, seg, g] value) [f, seg, g] = value := by
  have hbtk : isIndexSeg "blockType" = false := by decide
  have hNO2 : jOrigElem (jOrigField orig f) (natOfDigits seg.data) = .obj oe := by
    rw [jOrigField_eq_getSeg _ _ hf, jOrigElem_eq_getSeg _ _ hseg]
    exact horig
  have happ : applySegs orig tgt [f, seg, g] value =
      .obj (upsertField (jTargetRec tgt) f
        (.arr (padSet (jTargetArr (lookupField (jTargetRec tgt) f)) (natOfDigits seg.data)
          (carryBlockType
            (.obj (upsertField
              (jTargetRec (readIdx (jTargetArr (lookupField (jTargetRec tgt) f))
                (natOfDigits seg.data))) g value))
            (jOrigElem (jOrigField orig f) (natOfDigits seg.data)))))) := by
    rw [applySegs_cons_key _ _ _ _ _ hf, applySegs_cons_index _ _ _ _ _ hseg,
      applySegs_cons_key _ _ _ _ _ hg]
    rfl
  have hlacks := elemLacksBlockType_spec tgt f (natOfDigits seg.data) htgt
  have hnb : ¬ (lookupField
      (upsertField
        (jTargetRec (readIdx (jTargetArr (lookupField (jTargetRec tgt) f))
          (natOfDigits seg.data))) g value) "blockType").truthy = true := by
    intro hh
    rw [lookupField_upsert_ne _ _ _ _ (fun h3 => hgb h3.symm)] at hh
    rw [hlacks] at hh
    exact Bool.false_ne_true hh
  have hcarry : carryBlockType
      (.obj (upsertField
        (jTargetRec (readIdx (jTargetArr (lookupField (jTargetRec tgt) f))
          (natOfDigits seg.data))) g value))
      (jOrigElem (jOrigField orig f) (natOfDigits seg.data)) =
      .obj (upsertField
        (upsertField
          (jTargetRec (readIdx (jTargetArr (lookupField (jTargetRec tgt) f))
            (natOfDigits seg.data))) g value)
        "blockType" (lookupField oe "blockType")) := by
    rw [hNO2]
    simp only [carryBlockType]
    rw [if_pos ⟨hbt, hnb⟩]
  rw [happ, hcarry]
  constructor
  · rw [getSegsList_cons, getSeg_obj_of_key _ _ hf, lookupField_upsert_self,
      getSegsList_cons, getSeg_arr_of_index _ _ hseg, readIdx_padSet_self,
      getSegsList_cons, getSeg_obj_of_key _ _ hbtk, lookupField_upsert_self]
    rfl
  · rw [getSegsList_cons, getSeg_obj_of_key _ _ hf, lookupField_upsert_self,
      getSegsList_cons, getSeg_arr_of_index _ _ hseg, readIdx_padSet_self,
      getSegsList_cons, getSeg_obj_of_key _ _ hg,
      lookupField_upsert_ne _ _ _ _ hgb, lookupField_upsert_self]
    rfl

/-- Witness for C3: the repository's own test scenario — source document
`{layout: [{blockType: "hero", title: "Hello world"}]}`, empty locale
document, write of the translated title at `layout.0.title`. -/
theorem setValueAtPath_preserves_blockType_witness :
    getSegsList
        (applySegs
          (.obj [("id", .str "1"),
            ("layout", .arr [.obj [("blockType", .str "hero"), ("title", .str "Hello world")]])])
          (.obj []) ["layout", "0", "title"] (.str "Hallo wereld"))
        ["layout", "0", "blockType"] = .str "hero" ∧
    getSegsList
        (applySegs
          (.obj [("id", .str "1"),
            ("layout", .arr [.obj [("blockType", .str "hero"), ("title", .str "Hello world")]])])
          (.obj []) ["layout", "0", "title"] (.str "Hallo wereld"))
        ["layout", "0", "title"] = .str "Hallo wereld" :=
  setValueAtPath_preserves_blockType "layout" "0" "title"
    (.obj [("id", .str "1"),
      ("layout", .arr [.obj [("blockType", .str "hero"), ("title", .str "Hello world")]])])
    (.obj []) (.str "Hallo wereld")
    [("blockType", .str "hero"), ("title", .str "Hello world")]
    (by decide) (by decide) (by decide) (by decide) (by decide) (by decide) (by decide)

/-- Counterexample to C3 as stated: the locale document has no prior value at
the written path `f.0.g`, yet its existing element at `f.0` carries its own
truthy `blockType`, which is kept — the source element's `blockType` is not
carried over. -/
theorem setValueAtPath_blockType_counterexample :
    getValueAtPath (JVal.obj [("f", .arr [.obj [("blockType", .str "villain")]])])
      "f.0.g" = .undef ∧
    getValueAtPath
        (setValueAtPath
          (.obj [("f", .arr [.obj [("blockType", .str "hero"), ("g", .str "Hello")]])])
          (.obj [("f", .arr [.obj [("blockType", .str "villain")]])])
          "f.0.g" (.str "Hallo"))
        "f.0.blockType" = .str "villain" ∧
    JVal.str "villain" ≠ .str "hero" :=
  ⟨by decide, by decide, by decide⟩

/-! ### Manual-review trigger (C4) -/

/-- C4: the "requires manual review" signal is raised exactly when some locale
review result has at least one mismatch and a positive count of pre-existing
translated fragments. -/
theorem requiresHumanReview_iff (locales : List PendingReviewLocale) :
    requiresHumanReview locales = true ↔
      ∃ l ∈ locales,
        0 < (l.mismatches.getD []).length ∧ 0 < l.existingCount.getD 0 := by
  unfold requiresHumanReview
  rw [List.any_eq_true]
  constructor
  · rintro ⟨l, hl, hp⟩
    exact ⟨l, hl, by simpa using hp⟩
  · rintro ⟨l, hl, hp⟩
    exact ⟨l, hl, by simpa using hp⟩

/-! ### Character-budget chunking (C5) -/

theorem sumLen_append (a : List TranslatableItem) (x : TranslatableItem) :
    sumLen (a ++ [x]) = sumLen a + x.text.length := by
  simp [sumLen]

theorem member_le_sumLen (c : List TranslatableItem) (it : TranslatableItem)
    (h : it ∈ c) : it.text.length ≤ sumLen c := by
  induction c with
  | nil => cases h
  | cons x xs ih =>
    rw [List.mem_cons] at h
    rcases h with rfl | h
    · simp [sumLen]
    · have := ih h
      simp only [sumLen, List.map_cons, List.sum_cons] at *
      omega

theorem chunkFold_spec (items : List TranslatableItem) :
    ∀ (chunks : List (List TranslatableItem)) (cur : List TranslatableItem) (total : Nat),
      total = sumLen cur →
      (∀ c ∈ chunks, c ≠ [] ∧ (2 ≤ c.length → sumLen c ≤ MAX_CHARS_PER_CHUNK) ∧
        (∀ it ∈ c, MAX_CHARS_PER_CHUNK < it.text.length → c = [it])) →
      ((2 ≤ cur.length → sumLen cur ≤ MAX_CHARS_PER_CHUNK) ∧
        (∀ it ∈ cur, MAX_CHARS_PER_CHUNK < it.text.length → cur = [it])) →
      (items.foldl chunkStep (chunks, cur, total)).2.2 =
          sumLen (items.foldl chunkStep (chunks, cur, total)).2.1 ∧
      (∀ c ∈ (items.foldl chunkStep (chunks, cur, total)).1,
        c ≠ [] ∧ (2 ≤ c.length → sumLen c ≤ MAX_CHARS_PER_CHUNK) ∧
        (∀ it ∈ c, MAX_CHARS_PER_CHUNK < it.text.length → c = [it])) ∧
      ((2 ≤ (items.foldl chunkStep (chunks, cur, total)).2.1.length →
          sumLen (items.foldl chunkStep (chunks, cur, total)).2.1 ≤ MAX_CHARS_PER_CHUNK) ∧
        (∀ it ∈ (items.foldl chunkStep (chunks, cur, total)).2.1,
          MAX_CHARS_PER_CHUNK < it.text.length →
            (items.foldl chunkStep (chunks, cur, total)).2.1 = [it])) ∧
      (items.foldl chunkStep (chunks, cur, total)).1.flatten ++
          (items.foldl chunkStep (chunks, cur, total)).2.1 =
        chunks.flatten ++ cur ++ items := by
  induction items with
  | nil =>
    intro chunks cur total ht hch hcu
    exact ⟨ht, hch, hcu, by simp⟩
  | cons item rest ih =>
    intro chunks cur total ht hch hcu
    rw [List.foldl_cons]
    by_cases hcond : cur ≠ [] ∧ MAX_CHARS_PER_CHUNK < total + item.text.length
    · have hstep : chunkStep (chunks, cur, total) item =
          (chunks ++ [cur], [item], item.text.length) := by
        simp only [chunkStep]
        rw [if_pos hcond]
      rw [hstep]
      have hch' : ∀ c ∈ chunks ++ [cur],
          c ≠ [] ∧ (2 ≤ c.length → sumLen c ≤ MAX_CHARS_PER_CHUNK) ∧
          (∀ it ∈ c, MAX_CHARS_PER_CHUNK < it.text.length → c = [it]) := by
        intro c hc
        rw [List.mem_append] at hc
        rcases hc with hc | hc
        · exact hch c hc
        · rw [List.mem_singleton] at hc
          subst hc
          exact ⟨hcond.1, hcu.1, hcu.2⟩
      have hcu' : (2 ≤ ([item] : List TranslatableItem).length →
            sumLen [item] ≤ MAX_CHARS_PER_CHUNK) ∧
          (∀ it ∈ ([item] : List TranslatableItem),
            MAX_CHARS_PER_CHUNK < it.text.length → [item] = [it]) := by
        constructor
        · intro h2; simp at h2
        · intro it hit _
          rw [List.mem_singleton] at hit
          rw [hit]
      have hmain := ih (chunks ++ [cur]) [item] item.text.length (by simp [sumLen]) hch' hcu'
      refine ⟨hmain.1, hmain.2.1, hmain.2.2.1, ?_⟩
      rw [hmain.2.2.2]
      simp [List.flatten_append]
    · have hstep : chunkStep (chunks, cur, total) item =
          (chunks, cur ++ [item], total + item.text.length) := by
        simp only [chunkStep]
        rw [if_neg hcond]
      rw [hstep]
      have htot : total + item.text.length = sumLen (cur ++ [item]) := by
        rw [sumLen_append, ht]
      have hcu' : (2 ≤ (cur ++ [item]).length →
            sumLen (cur ++ [item]) ≤ MAX_CHARS_PER_CHUNK) ∧
          (∀ it ∈ cur ++ [item],
            MAX_CHARS_PER_CHUNK < it.text.length → cur ++ [item] = [it]) := by
        rcases Decidable.em (cur = []) with hnil | hne
        · subst hnil
          constructor
          · intro h2; simp at h2
          · intro it hit _
            simp only [List.nil_append, List.mem_singleton] at hit
            simp [hit]
        · have hle : total + item.text.length ≤ MAX_CHARS_PER_CHUNK := by
            by_contra hgt
            exact hcond ⟨hne, by omega⟩
          constructor
          · intro _
            rw [← htot] at *
            exact hle
          · intro it hit hbig
            exfalso
            have := member_le_sumLen (cur ++ [item]) it hit
            rw [← htot] at this
            omega
      have hmain := ih chunks (cur ++ [item]) (total + item.text.length) htot hch hcu'
      refine ⟨hmain.1, hmain.2.1, hmain.2.2.1, ?_⟩
      rw [hmain.2.2.2]
      simp

/-- Concatenating the batches of `chunkItems` in order reproduces the input. -/
theorem chunkItems_join (items : List TranslatableItem) :
    (chunkItems items).flatten = items := by
  unfold chunkItems
  have h := chunkFold_spec items [] [] 0 (by simp [sumLen])
    (by intro c hc; simp at hc)
    ⟨by intro h2; simp at h2, by intro it h2 _; simp at h2⟩
  obtain ⟨-, -, -, hj⟩ := h
  dsimp only
  split
  · rw [List.flatten_append]
    simpa using hj
  · next h2 =>
    have hnil : (items.foldl chunkStep ([], [], 0)).2.1 = [] := by
      by_contra hx
      exact h2 hx
    rw [hnil] at hj
    simpa using hj

/-- C5: every batch produced by `chunkItems` is non-empty; a batch with two or
more fragments stays within the 3200-character budget; an oversized fragment
always sits alone in its batch; and concatenating the batches in order
reproduces the original fragment list. -/
theorem chunkItems_spec (items : List TranslatableItem) :
    (chunkItems items).flatten = items ∧
    ∀ c ∈ chunkItems items,
      c ≠ [] ∧ (2 ≤ c.length → sumLen c ≤ MAX_CHARS_PER_CHUNK) ∧
      (∀ it ∈ c, MAX_CHARS_PER_CHUNK < it.text.length → c = [it]) := by
  refine ⟨chunkItems_join items, ?_⟩
  have h := chunkFold_spec items [] [] 0 (by simp [sumLen])
    (by intro c hc; simp at hc)
    ⟨by intro h2; simp at h2, by intro it h2 _; simp at h2⟩
  obtain ⟨-, hch, hcu, -⟩ := h
  intro c hc
  unfold chunkItems at hc
  dsimp only at hc
  by_cases hne : (items.foldl chunkStep ([], [], 0)).2.1 ≠ []
  · rw [if_pos hne, List.mem_append] at hc
    rcases hc with hc | hc
    · exact hch c hc
    · rw [List.mem_singleton] at hc
      subst hc
      exact ⟨hne, hcu.1, hcu.2⟩
  · rw [if_neg hne] at hc
    exact hch c hc

/-- Witness for C5 at a concrete list: a small two-fragment list forms one
batch which is within budget, and an oversized fragment sits alone. -/
theorem chunkItems_spec_witness :
    (chunkItems [⟨false, "a", "hello"⟩, ⟨false, "b", "world"⟩]).flatten =
      [⟨false, "a", "hello"⟩, ⟨false, "b", "world"⟩] ∧
    sumLen [⟨false, "a", "hello"⟩, ⟨false, "b", "world"⟩] ≤ MAX_CHARS_PER_CHUNK :=
  ⟨(chunkItems_spec [⟨false, "a", "hello"⟩, ⟨false, "b", "world"⟩]).1,
   ((chunkItems_spec [⟨false, "a", "hello"⟩, ⟨false, "b", "world"⟩]).2
      [⟨false, "a", "hello"⟩, ⟨false, "b", "world"⟩] (by decide)).2.1 (by decide)⟩

/-! ### Translate/override disjointness in locale plans (C6) -/

/-- C6: in every locale plan built by the bulk orchestrator, the fragments
placed in translate chunks are exactly the items at the sanitized translate
indexes not claimed by an override, and those indexes are disjoint from the
override indexes. -/
theorem buildLocalePlan_disjoint (items : List TranslatableItem)
    (locale : TranslateReviewLocale) :
    (buildLocalePlan items locale).chunks.flatten =
      (translateIndexesOf items locale).filterMap (getAtInt items) ∧
    ∀ i ∈ translateIndexesOf items locale, i ∉ overrideIndexesOf items locale := by
  constructor
  · exact chunkItems_join _
  · intro i hi
    unfold translateIndexesOf at hi
    rw [List.mem_filter] at hi
    simpa using hi.2

/-- Witness for C6: a review result selecting indexes 0 and 1 with an override
suggestion for index 1 puts only index 0 in the translate set, and the theorem
yields its absence from the override set. -/
theorem buildLocalePlan_disjoint_witness :
    (0 : Int) ∈ translateIndexesOf
        [⟨false, "title", "Hello"⟩, ⟨false, "body", "World"⟩]
        ⟨"nl", 0, [], some [⟨1, "Wereld"⟩], [0, 1]⟩ ∧
    (0 : Int) ∉ overrideIndexesOf
        [⟨false, "title", "Hello"⟩, ⟨false, "body", "World"⟩]
        ⟨"nl", 0, [], some [⟨1, "Wereld"⟩], [0, 1]⟩ :=
  ⟨by decide,
   (buildLocalePlan_disjoint
      [⟨false, "title", "Hello"⟩, ⟨false, "body", "World"⟩]
      ⟨"nl", 0, [], some [⟨1, "Wereld"⟩], [0, 1]⟩).2 0 (by decide)⟩

/-! ### Review with an absent locale document (C7) -/

theorem reviewScan_absent (items : List TranslatableItem) :
    ∀ (idx : Nat) (st : ReviewScanState),
      (∀ x ∈ st.translateIndexes, x < (idx : Int)) →
      reviewScan none items idx st =
        ⟨st.translateIndexes ++ (List.range' idx items.length).map Int.ofNat,
         st.existingByIndex, st.aiInputs,
         st.candidates ++ (List.enumFrom idx items).map (fun p => ((p.1 : Int), p.2.text)),
         st.existingCount⟩ := by
  induction items with
  | nil =>
    intro idx st h
    obtain ⟨ti, ebi, ai, ca, ec⟩ := st
    simp [reviewScan, List.range']
  | cons item rest ih =>
    intro idx st h
    have hstep : reviewScan none (item :: rest) idx st =
        reviewScan none rest (idx + 1)
          { st with
            translateIndexes := addIdxSet st.translateIndexes (idx : Int)
            candidates := st.candidates ++ [((idx : Int), item.text)] } := rfl
    rw [hstep]
    have hadd : addIdxSet st.translateIndexes (idx : Int) =
        st.translateIndexes ++ [(idx : Int)] := by
      unfold addIdxSet
      rw [if_neg]
      intro hmem
      exact absurd (h _ hmem) (lt_irrefl _)
    have hbound : ∀ x ∈ st.translateIndexes ++ [(idx : Int)],
        x < ((idx + 1 : Nat) : Int) := by
      intro x hx
      rw [List.mem_append, List.mem_singleton] at hx
      rcases hx with hx | rfl
      · have := h x hx
        push_cast
        omega
      · push_cast
        omega
    rw [ih (idx + 1) _ (by rw [hadd] at *; exact hbound)]
    simp only [hadd, List.length_cons]
    rw [show List.range' idx (rest.length + 1) = idx :: List.range' (idx + 1) rest.length
      from rfl]
    rw [show List.enumFrom idx (item :: rest) = (idx, item) :: List.enumFrom (idx + 1) rest
      from rfl]
    simp [List.append_assoc]

theorem insertSortedInt_le (x : Int) (l : List Int) (h : ∀ y ∈ l, x ≤ y) :
    insertSortedInt x l = x :: l := by
  cases l with
  | nil => rfl
  | cons y ys =>
    unfold insertSortedInt
    rw [if_pos (h y (List.mem_cons_self _ _))]

theorem sortIndexes_range' (n : Nat) : ∀ s : Nat,
    sortIndexes ((List.range' s n).map Int.ofNat) = (List.range' s n).map Int.ofNat := by
  induction n with
  | zero => intro s; rfl
  | succ m ih =>
    intro s
    rw [show List.range' s (m + 1) = s :: List.range' (s + 1) m from rfl, List.map_cons]
    simp only [sortIndexes]
    rw [ih (s + 1), insertSortedInt_le]
    intro y hy
    rw [List.mem_map] at hy
    obtain ⟨k, hk, rfl⟩ := hy
    have hk' := (List.mem_range'_1.mp hk).1
    exact Int.ofNat_le.mpr (by omega)

/-- C7: with no existing locale document (absence treated as empty), the
review result for that locale lists every fragment index, in order, in
`translateIndexes`, has no mismatches, and counts no existing fragments; the
review itself cannot fail for that locale. -/
theorem generateReview_absent_locale
    (detect : List MIInput → Except String (List MIResult))
    (tr : List String → Except String (List String)) (code : String)
    (items : List TranslatableItem) :
    ∃ r, generateReviewLocale detect tr code none items = Except.ok r ∧
      r.translateIndexes = (List.range items.length).map Int.ofNat ∧
      r.mismatches = [] ∧ r.existingCount = 0 := by
  have hscan := reviewScan_absent items 0 ⟨[], [], [], [], 0⟩
    (by intro x hx; simp at hx)
  unfold generateReviewLocale
  rw [hscan]
  refine ⟨_, rfl, ?_, rfl, rfl⟩
  show sortIndexes ([] ++ (List.range' 0 items.length).map Int.ofNat) =
    (List.range items.length).map Int.ofNat
  rw [List.nil_append, List.range_eq_range']
  exact sortIndexes_range' items.length 0

/-! ### Suggestion hygiene (C8) -/

/-- Counterexample to C8 as stated: `generateTranslationReview` (the
reviewPlan variant) pads a short translator reply with `''` and keeps the
empty-text suggestion in its result. -/
theorem generateReviewLocale_empty_suggestion :
    generateReviewLocale (fun _ => Except.ok []) (fun _ => Except.ok [""]) "nl" none
      [⟨false, "title", "Hello"⟩] =
    Except.ok ⟨"nl", 0, [], some [⟨0, ""⟩], [0]⟩ ∧
    (⟨0, ""⟩ : TranslateReviewSuggestion).text = "" :=
  ⟨rfl, rfl⟩

theorem mem_addIdxSet_self (l : List Int) (i : Int) : i ∈ addIdxSet l i := by
  unfold addIdxSet
  split
  · assumption
  · simp

theorem mem_addIdxSet_of_mem (l : List Int) (i j : Int) (h : j ∈ l) :
    j ∈ addIdxSet l i := by
  unfold addIdxSet
  split
  · exact h
  · exact List.mem_append_left _ h

theorem reviewScan_cands_sub (localeDoc : Option JVal) (items : List TranslatableItem) :
    ∀ (idx : Nat) (st : ReviewScanState),
      (∀ p ∈ st.candidates, p.1 ∈ st.translateIndexes) →
      ∀ p ∈ (reviewScan localeDoc items idx st).candidates,
        p.1 ∈ (reviewScan localeDoc items idx st).translateIndexes := by
  induction items with
  | nil => intro idx st h; exact h
  | cons item rest ih =>
    intro idx st h
    unfold reviewScan
    dsimp only
    split
    · apply ih
      intro p hp
      rw [List.mem_append, List.mem_singleton] at hp
      rcases hp with hp | rfl
      · exact mem_addIdxSet_of_mem _ _ _ (h p hp)
      · exact mem_addIdxSet_self _ _
    · apply ih
      exact h

theorem detectFold_cands_sub (items : List TranslatableItem)
    (ebi : List (Int × String)) (results : List MIResult) :
    ∀ acc : List Int × List TranslateReviewMismatch × List (Int × String),
      (∀ p ∈ acc.2.2, p.1 ∈ acc.1) →
      ∀ p ∈ (results.foldl (detectStep items ebi) acc).2.2,
        p.1 ∈ (results.foldl (detectStep items ebi) acc).1 := by
  induction results with
  | nil => intro acc h; exact h
  | cons res rest ih =>
    intro acc h
    rw [List.foldl_cons]
    apply ih
    obtain ⟨idxs, mms, cands⟩ := acc
    unfold detectStep
    split
    · exact h
    · dsimp only
      cases hsi : getAtInt items res.index with
      | some it =>
        intro p hp
        have hp' : p ∈ cands ++ [(res.index, it.text)] := hp
        rw [List.mem_append, List.mem_singleton] at hp'
        rcases hp' with hp' | rfl
        · exact mem_addIdxSet_of_mem _ _ _ (h p hp')
        · exact mem_addIdxSet_self _ _
      | none =>
        intro p hp
        have hp' : p ∈ cands := hp
        exact mem_addIdxSet_of_mem _ _ _ (h p hp')

theorem detectPhase_cands_sub (detect : List MIInput → Except String (List MIResult))
    (items : List TranslatableItem) (st : ReviewScanState)
    (hst : ∀ p ∈ st.candidates, p.1 ∈ st.translateIndexes)
    (out : List Int × List TranslateReviewMismatch × List (Int × String))
    (h : detectPhase detect items st = .ok out) :
    ∀ p ∈ out.2.2, p.1 ∈ out.1 := by
  unfold detectPhase at h
  split at h
  · cases h
    exact hst
  · cases hd : detect st.aiInputs with
    | error e => rw [hd] at h; exact Except.noConfusion h
    | ok results =>
      rw [hd] at h
      cases h
      exact detectFold_cands_sub items st.existingByIndex results _ hst

theorem snd_mem_of_mem_enumFrom {α : Type} :
    ∀ (l : List α) (n : Nat) (p : Nat × α), p ∈ List.enumFrom n l → p.2 ∈ l := by
  intro l
  induction l with
  | nil => intro n p hp; cases hp
  | cons x xs ih =>
    intro n p hp
    rw [show List.enumFrom n (x :: xs) = (n, x) :: List.enumFrom (n + 1) xs from rfl,
      List.mem_cons] at hp
    rcases hp with rfl | hp
    · exact List.mem_cons_self _ _
    · exact List.mem_cons_of_mem _ (ih (n + 1) p hp)

theorem translateChunksRun_indexes (tr : List String → Except String (List String)) :
    ∀ (chs : List (List (Int × String))) (sugs : List TranslateReviewSuggestion),
      translateChunksRun tr chs = .ok sugs →
      ∀ s ∈ sugs, ∃ p ∈ chs.flatten, p.1 = s.index := by
  intro chs
  induction chs with
  | nil =>
    intro sugs h s hs
    cases h
    cases hs
  | cons ch rest ih =>
    intro sugs h s hs
    cases ht : tr (ch.map (fun e => e.2)) with
    | error e =>
      simp only [translateChunksRun, ht] at h
      exact Except.noConfusion h
    | ok translations =>
      by_cases hlen : translations.length ≠ ch.length
      · simp only [translateChunksRun, ht, if_pos hlen] at h
        exact Except.noConfusion h
      · cases hr : translateChunksRun tr rest with
        | error e =>
          simp only [translateChunksRun, ht, if_neg hlen, hr] at h
          exact Except.noConfusion h
        | ok more =>
          simp only [translateChunksRun, ht, if_neg hlen, hr] at h
          cases h
          rw [List.mem_append] at hs
          rcases hs with hs | hs
          · rw [List.mem_map] at hs
            obtain ⟨p, hp, rfl⟩ := hs
            refine ⟨p.2, ?_, rfl⟩
            rw [List.mem_flatten]
            exact ⟨ch, List.mem_cons_self _ _, snd_mem_of_mem_enumFrom ch 0 p hp⟩
          · obtain ⟨p, hp, he⟩ := ih more hr s hs
            refine ⟨p, ?_, he⟩
            rw [List.mem_flatten] at hp ⊢
            obtain ⟨c, hc, hpc⟩ := hp
            exact ⟨c, List.mem_cons_of_mem _ hc, hpc⟩

theorem chunkSuggestionFold_flatten (entries : List (Int × String)) :
    ∀ (chunks : List (List (Int × String))) (cur : List (Int × String)) (total : Nat),
      ((entries.foldl chunkSuggestionStep (chunks, cur, total)).1.flatten ++
        (entries.foldl chunkSuggestionStep (chunks, cur, total)).2.1) =
      chunks.flatten ++ cur ++ entries := by
  induction entries with
  | nil => intro chunks cur total; simp
  | cons e rest ih =>
    intro chunks cur total
    rw [List.foldl_cons]
    by_cases hc : cur ≠ [] ∧ MAX_CHARS_PER_CHUNK < total + e.2.length
    · rw [show chunkSuggestionStep (chunks, cur, total) e
            = (chunks ++ [cur], [e], e.2.length) from by
          simp [chunkSuggestionStep, if_pos hc]]
      rw [ih (chunks ++ [cur]) [e] e.2.length]
      simp [List.flatten_append, List.append_assoc]
    · rw [show chunkSuggestionStep (chunks, cur, total) e
            = (chunks, cur ++ [e], total + e.2.length) from by
          simp [chunkSuggestionStep, if_neg hc]]
      rw [ih chunks (cur ++ [e]) (total + e.2.length)]
      simp [List.append_assoc]

theorem chunkSuggestionInputs_flatten (entries : List (Int × String)) :
    (chunkSuggestionInputs entries).flatten = entries := by
  unfold chunkSuggestionInputs
  dsimp only
  have h := chunkSuggestionFold_flatten entries [] [] 0
  split
  · rw [List.flatten_append]
    simpa using h
  · next h2 =>
    have hnil : (entries.foldl chunkSuggestionStep ([], [], 0)).2.1 = [] := by
      by_contra hx
      exact h2 hx
    rw [hnil] at h
    simpa using h

theorem mem_insertSortedInt (x y : Int) :
    ∀ l, y ∈ insertSortedInt x l ↔ y = x ∨ y ∈ l := by
  intro l
  induction l with
  | nil => simp [insertSortedInt]
  | cons z zs ih =>
    unfold insertSortedInt
    split
    · simp [List.mem_cons]
    · rw [List.mem_cons, ih, List.mem_cons]
      tauto

theorem mem_sortIndexes (y : Int) : ∀ l, y ∈ sortIndexes l ↔ y ∈ l := by
  intro l
  induction l with
  | nil => simp [sortIndexes]
  | cons x xs ih =>
    simp only [sortIndexes, mem_insertSortedInt, ih, List.mem_cons]

theorem sanitizeGo_spec : ∀ (l : List TranslateReviewSuggestion) (seen : List Int),
    (∀ s ∈ sanitizeGo seen l, jsTrim s.text ≠ "") ∧
    ((sanitizeGo seen l).map (fun s => s.index)).Nodup ∧
    (∀ s ∈ sanitizeGo seen l, s.index ∉ seen) ∧
    (∀ s ∈ sanitizeGo seen l, s ∈ l) := by
  intro l
  induction l with
  | nil =>
    intro seen
    refine ⟨?_, ?_, ?_, ?_⟩ <;> simp [sanitizeGo]
  | cons s rest ih =>
    intro seen
    unfold sanitizeGo
    split
    · obtain ⟨h1, h2, h3, h4⟩ := ih seen
      exact ⟨h1, h2, h3, fun t ht => List.mem_cons_of_mem _ (h4 t ht)⟩
    · next htrim =>
      split
      · obtain ⟨h1, h2, h3, h4⟩ := ih seen
        exact ⟨h1, h2, h3, fun t ht => List.mem_cons_of_mem _ (h4 t ht)⟩
      · next hseen =>
        obtain ⟨h1, h2, h3, h4⟩ := ih (s.index :: seen)
        refine ⟨?_, ?_, ?_, ?_⟩
        · intro t ht
          rw [List.mem_cons] at ht
          rcases ht with rfl | ht
          · exact htrim
          · exact h1 t ht
        · rw [List.map_cons, List.nodup_cons]
          refine ⟨?_, h2⟩
          intro hmem
          rw [List.mem_map] at hmem
          obtain ⟨t, ht, hti⟩ := hmem
          apply h3 t ht
          rw [hti]
          exact List.mem_cons_self _ _
        · intro t ht
          rw [List.mem_cons] at ht
          rcases ht with rfl | ht
          · exact hseen
          · intro hmem
            exact (h3 t ht) (List.mem_cons_of_mem _ hmem)
        · intro t ht
          rw [List.mem_cons] at ht
          rcases ht with rfl | ht
          · exact List.mem_cons_self _ _
          · exact List.mem_cons_of_mem _ (h4 t ht)

/-- C8 (amended): every per-locale result of `runTranslationReview` (the
handler variant) has a suggestion list with no empty-trimmed text, at most one
entry per fragment index, and every suggestion index among the locale's
`translateIndexes`.  The reviewPlan variant keeps empty-text results (see the
counterexample). -/
theorem runReviewLocale_suggestions_clean
    (detect : List MIInput → Except String (List MIResult))
    (tr : List String → Except String (List String)) (code : String)
    (localeDoc : Option JVal) (items : List TranslatableItem)
    (r : TranslateReviewLocale)
    (h : runReviewLocale detect tr code localeDoc items = Except.ok r) :
    (∀ s ∈ r.suggestions.getD [], jsTrim s.text ≠ "") ∧
    ((r.suggestions.getD []).map (fun s => s.index)).Nodup ∧
    (∀ s ∈ r.suggestions.getD [], s.index ∈ r.translateIndexes) := by
  cases hd : detectPhase detect items (reviewScan localeDoc items 0 ⟨[], [], [], [], 0⟩) with
  | error e =>
    simp only [runReviewLocale, hd] at h
    exact Except.noConfusion h
  | ok out =>
    obtain ⟨idxs, mms, cands⟩ := out
    simp only [runReviewLocale, hd] at h
    cases ht : (if cands.isEmpty then Except.ok []
        else translateChunksRun tr (chunkSuggestionInputs cands)) with
    | error e => rw [ht] at h; exact Except.noConfusion h
    | ok sugs =>
      rw [ht] at h
      cases h
      refine ⟨?_, ?_, ?_⟩
      · intro s hs
        exact (sanitizeGo_spec sugs []).1 s (by simpa using hs)
      · simpa using (sanitizeGo_spec sugs []).2.1
      · intro s hs
        have hmem : s ∈ sugs := (sanitizeGo_spec sugs []).2.2.2 s (by simpa using hs)
        have hscansub : ∀ p ∈ (reviewScan localeDoc items 0
            (⟨[], [], [], [], 0⟩ : ReviewScanState)).candidates,
            p.1 ∈ (reviewScan localeDoc items 0
              (⟨[], [], [], [], 0⟩ : ReviewScanState)).translateIndexes :=
          reviewScan_cands_sub localeDoc items 0 ⟨[], [], [], [], 0⟩
            (by intro p hp; simp at hp)
        have hsub := detectPhase_cands_sub detect items _ hscansub (idxs, mms, cands) hd
        by_cases hc : cands.isEmpty
        · rw [if_pos hc] at ht
          cases ht
          cases hmem
        · rw [if_neg hc] at ht
          obtain ⟨p, hp, hpi⟩ := translateChunksRun_indexes tr _ _ ht s hmem
          rw [chunkSuggestionInputs_flatten] at hp
          show s.index ∈ sortIndexes idxs
          rw [mem_sortIndexes, ← hpi]
          exact hsub p hp

/-! ### Streaming executor guards (C1) -/

theorem errCount_append (a b : List Ev) :
    errCount (a ++ b) = errCount a + errCount b := by
  simp [errCount, List.filter_append]

theorem appliedCount_append (code : String) (a b : List Ev) :
    appliedCount code (a ++ b) = appliedCount code a + appliedCount code b := by
  simp [appliedCount, List.filter_append]

theorem updatesFor_append (code : String) (a b : List (String × JVal)) :
    updatesFor code (a ++ b) = updatesFor code a ++ updatesFor code b := by
  simp [updatesFor, List.filter_append]

theorem updatesFor_nil_of_key (c k : String) (hck : k ≠ c) :
    ∀ ups : List (String × JVal), (∀ p ∈ ups, p.1 = k) → updatesFor c ups = [] := by
  intro ups
  induction ups with
  | nil => intro _; rfl
  | cons p rest ih =>
    intro hk
    have hp := hk p (List.mem_cons_self _ _)
    have hb : (p.1 == c) = false := beq_eq_false_iff_ne.mpr (by rw [hp]; exact hck)
    have hrest := ih (fun q hq => hk q (List.mem_cons_of_mem _ hq))
    simp only [updatesFor] at hrest ⊢
    simp [List.filter_cons, hb, hrest]

theorem processChunksGo_counts (env : StreamEnv) (baseDoc : Option JVal)
    (locale : String) (total : Nat) (code : String) :
    ∀ (chs : List (List TranslatableItem)) (ld : JVal) (comp : Nat),
      appliedCount code (processChunksGo env baseDoc locale total ld comp chs).1 = 0 ∧
      errCount (processChunksGo env baseDoc locale total ld comp chs).1 =
        (if (processChunksGo env baseDoc locale total ld comp chs).2.2.2 = true
          then 1 else 0) := by
  intro chs
  induction chs with
  | nil => intro ld comp; exact ⟨rfl, rfl⟩
  | cons ch rest ih =>
    intro ld comp
    cases ht : env.translate (((ch.map (planFor baseDoc)).map (fun p => p.segments)).flatten) with
    | error msg =>
      simp only [processChunksGo, ht]
      exact ⟨rfl, rfl⟩
    | ok translated =>
      by_cases hlen : translated.length ≠
          (((ch.map (planFor baseDoc)).map (fun p => p.segments)).flatten).length
      · simp only [processChunksGo, ht, if_pos hlen]
        exact ⟨rfl, rfl⟩
      · simp only [processChunksGo, ht, if_neg hlen]
        have h := ih (applyChunkGo baseDoc ld 0 ch translated) (comp + ch.length)
        constructor
        · simpa [appliedCount, isAppliedFor, List.filter_cons] using h.1
        · simpa [errCount, isErrorEv, List.filter_cons] using h.2

theorem processChunksGo_mismatch_abort (env : StreamEnv) (baseDoc : Option JVal)
    (locale : String) (total : Nat) :
    ∀ (chs : List (List TranslatableItem)) (ld : JVal) (comp : Nat),
      chunksMismatch env baseDoc chs = true →
      (processChunksGo env baseDoc locale total ld comp chs).2.2.2 = true := by
  intro chs
  induction chs with
  | nil =>
    intro ld comp hm
    exact Bool.noConfusion hm
  | cons ch rest ih =>
    intro ld comp hm
    cases ht : env.translate (((ch.map (planFor baseDoc)).map (fun p => p.segments)).flatten) with
    | error msg =>
      simp only [chunksMismatch, ht] at hm
      exact Bool.noConfusion hm
    | ok translated =>
      by_cases hlen : translated.length ≠
          (((ch.map (planFor baseDoc)).map (fun p => p.segments)).flatten).length
      · simp only [processChunksGo, ht, if_pos hlen]
      · have hm' : chunksMismatch env baseDoc rest = true := by
          simpa only [chunksMismatch, ht, if_neg hlen] using hm
        simp only [processChunksGo, ht, if_neg hlen]
        exact ih (applyChunkGo baseDoc ld 0 ch translated) (comp + ch.length) hm'

theorem processOverridesGo_counts (env : StreamEnv) (baseDoc : Option JVal)
    (locale : String) (total : Nat) (code : String) :
    ∀ (ovs : List TranslatableItem) (ld : JVal) (comp : Nat),
      errCount (processOverridesGo env baseDoc locale total ld comp ovs).1 = 0 ∧
      appliedCount code (processOverridesGo env baseDoc locale total ld comp ovs).1 = 0 := by
  intro ovs
  induction ovs with
  | nil => intro ld comp; exact ⟨rfl, rfl⟩
  | cons ov rest ih =>
    intro ld comp
    have h := ih (setValueAtPath (jBase baseDoc) ld ov.path
      (if ov.lexical then JVal.lex (env.htmlToLex ov.text) else JVal.str ov.text)) (comp + 1)
    constructor
    · simp only [processOverridesGo]
      simpa [errCount, isErrorEv, List.filter_cons] using h.1
    · simp only [processOverridesGo]
      simpa [appliedCount, isAppliedFor, List.filter_cons] using h.2

theorem localeFinish_updates_key (env : StreamEnv) (code : String) (evs : List Ev)
    (ld : JVal) :
    ∀ p ∈ (localeFinish env code evs ld).2.1, p.1 = code := by
  intro p hp
  cases ld
  case obj fs =>
    cases hu : env.update code (.obj fs) with
    | error e0 =>
      simp only [localeFinish, hu, List.mem_singleton] at hp
      rw [hp]
    | ok u =>
      simp only [localeFinish, hu, List.mem_singleton] at hp
      rw [hp]
  all_goals simp [localeFinish] at hp

theorem localeFinish_ok_counts (env : StreamEnv) (code c : String) (evs : List Ev)
    (ld : JVal) (hab : (localeFinish env code evs ld).2.2 = false) :
    errCount (localeFinish env code evs ld).1 = errCount evs ∧
    (c ≠ code → appliedCount c (localeFinish env code evs ld).1 = appliedCount c evs) := by
  cases ld
  case obj fs =>
    cases hu : env.update code (.obj fs) with
    | error e0 =>
      simp only [localeFinish, hu] at hab
      exact Bool.noConfusion hab
    | ok u =>
      simp only [localeFinish, hu]
      constructor
      · rw [errCount_append]
        simp [errCount, isErrorEv, List.filter_cons]
      · intro hcc
        rw [appliedCount_append]
        have hb0 : (code == c) = false := beq_eq_false_iff_ne.mpr (fun h => hcc h.symm)
        simp [appliedCount, isAppliedFor, List.filter_cons, hb0]
  all_goals (simp only [localeFinish] at hab; exact Bool.noConfusion hab)

theorem processLocale_skip (env : StreamEnv) (baseDoc : Option JVal)
    (entry : TranslateLocaleEntry)
    (h0 : countItems entry.chunks + (entry.overrides.getD []).length = 0) :
    processLocale env baseDoc entry = ([], [], false) := by
  simp only [processLocale, if_pos h0]

theorem processLocale_mismatch (env : StreamEnv) (baseDoc : Option JVal)
    (entry : TranslateLocaleEntry)
    (h0 : countItems entry.chunks + (entry.overrides.getD []).length ≠ 0)
    (hm : chunksMismatch env baseDoc entry.chunks = true) :
    (processLocale env baseDoc entry).2.1 = [] ∧
    (processLocale env baseDoc entry).2.2 = true ∧
    errCount (processLocale env baseDoc entry).1 = 1 ∧
    ∀ c, appliedCount c (processLocale env baseDoc entry).1 = 0 := by
  have habort := processChunksGo_mismatch_abort env baseDoc entry.code
    (countItems entry.chunks + (entry.overrides.getD []).length)
    entry.chunks (initLocaleData (env.localeDoc entry.code)) 0 hm
  simp only [processLocale, if_neg h0, if_pos habort]
  refine ⟨by trivial, by trivial, ?_, ?_⟩
  · rw [(processChunksGo_counts env baseDoc entry.code
      (countItems entry.chunks + (entry.overrides.getD []).length) "" entry.chunks
      (initLocaleData (env.localeDoc entry.code)) 0).2, if_pos habort]
  · intro c
    exact (processChunksGo_counts env baseDoc entry.code
      (countItems entry.chunks + (entry.overrides.getD []).length) c entry.chunks
      (initLocaleData (env.localeDoc entry.code)) 0).1

theorem processLocale_ok_counts (env : StreamEnv) (baseDoc : Option JVal)
    (entry : TranslateLocaleEntry) (c : String)
    (hab : (processLocale env baseDoc entry).2.2 = false)
    (hc : c ≠ entry.code) :
    errCount (processLocale env baseDoc entry).1 = 0 ∧
    appliedCount c (processLocale env baseDoc entry).1 = 0 ∧
    updatesFor c (processLocale env baseDoc entry).2.1 = [] := by
  by_cases h0 : countItems entry.chunks + (entry.overrides.getD []).length = 0
  · rw [processLocale_skip env baseDoc entry h0]
    exact ⟨rfl, rfl, rfl⟩
  · by_cases hcab : (processChunksGo env baseDoc entry.code
        (countItems entry.chunks + (entry.overrides.getD []).length)
        (initLocaleData (env.localeDoc entry.code)) 0 entry.chunks).2.2.2 = true
    · simp only [processLocale, if_neg h0, if_pos hcab] at hab
      exact Bool.noConfusion hab
    · simp only [processLocale, if_neg h0, if_neg hcab] at hab ⊢
      obtain ⟨hfe, hfa⟩ := localeFinish_ok_counts env entry.code c _ _ hab
      refine ⟨?_, ?_, ?_⟩
      · rw [hfe, errCount_append,
          (processChunksGo_counts env baseDoc entry.code
            (countItems entry.chunks + (entry.overrides.getD []).length) c entry.chunks
            (initLocaleData (env.localeDoc entry.code)) 0).2, if_neg hcab,
          (processOverridesGo_counts env baseDoc entry.code
            (countItems entry.chunks + (entry.overrides.getD []).length) c
            (entry.overrides.getD [])
            (processChunksGo env baseDoc entry.code
              (countItems entry.chunks + (entry.overrides.getD []).length)
              (initLocaleData (env.localeDoc entry.code)) 0 entry.chunks).2.1
            (processChunksGo env baseDoc entry.code
              (countItems entry.chunks + (entry.overrides.getD []).length)
              (initLocaleData (env.localeDoc entry.code)) 0 entry.chunks).2.2.1).1]
      · rw [hfa hc, appliedCount_append,
          (processChunksGo_counts env baseDoc entry.code
            (countItems entry.chunks + (entry.overrides.getD []).length) c entry.chunks
            (initLocaleData (env.localeDoc entry.code)) 0).1,
          (processOverridesGo_counts env baseDoc entry.code
            (countItems entry.chunks + (entry.overrides.getD []).length) c
            (entry.overrides.getD [])
            (processChunksGo env baseDoc entry.code
              (countItems entry.chunks + (entry.overrides.getD []).length)
              (initLocaleData (env.localeDoc entry.code)) 0 entry.chunks).2.1
            (processChunksGo env baseDoc entry.code
              (countItems entry.chunks + (entry.overrides.getD []).length)
              (initLocaleData (env.localeDoc entry.code)) 0 entry.chunks).2.2.1).2]
      · exact updatesFor_nil_of_key c entry.code (Ne.symm hc) _
          (localeFinish_updates_key env entry.code _ _)

theorem streamLocalesGo_cons_ok (env : StreamEnv) (baseDoc : Option JVal)
    (entry : TranslateLocaleEntry) (rest : List TranslateLocaleEntry)
    (hab : (processLocale env baseDoc entry).2.2 = false) :
    (streamLocalesGo env baseDoc (entry :: rest)).1 =
      (processLocale env baseDoc entry).1 ++ (streamLocalesGo env baseDoc rest).1 ∧
    (streamLocalesGo env baseDoc (entry :: rest)).2.1 =
      (processLocale env baseDoc entry).2.1 ++ (streamLocalesGo env baseDoc rest).2.1 ∧
    (streamLocalesGo env baseDoc (entry :: rest)).2.2 =
      (streamLocalesGo env baseDoc rest).2.2 := by
  refine ⟨?_, ?_, ?_⟩ <;>
    (simp only [streamLocalesGo]; rw [if_neg (by simp [hab])])

theorem streamLocalesGo_cons_abort (env : StreamEnv) (baseDoc : Option JVal)
    (entry : TranslateLocaleEntry) (rest : List TranslateLocaleEntry)
    (hab : (processLocale env baseDoc entry).2.2 = true) :
    streamLocalesGo env baseDoc (entry :: rest) = processLocale env baseDoc entry := by
  simp only [streamLocalesGo]
  rw [if_pos hab]

theorem runMismatchEntry_mem (env : StreamEnv) (baseDoc : Option JVal) :
    ∀ (locales : List TranslateLocaleEntry) (code : String),
      runMismatchEntry env baseDoc locales = some code →
      ∃ e ∈ locales, e.code = code ∧
        countItems e.chunks + (e.overrides.getD []).length ≠ 0 := by
  intro locales
  induction locales with
  | nil => intro code hm; exact Option.noConfusion hm
  | cons entry rest ih =>
    intro code hm
    simp only [runMismatchEntry] at hm
    by_cases h0 : countItems entry.chunks + (entry.overrides.getD []).length = 0
    · rw [if_pos h0] at hm
      obtain ⟨e, he, hec, het⟩ := ih code hm
      exact ⟨e, List.mem_cons_of_mem _ he, hec, het⟩
    · rw [if_neg h0] at hm
      by_cases hmm : chunksMismatch env baseDoc entry.chunks = true
      · rw [if_pos hmm] at hm
        cases hm
        exact ⟨entry, List.mem_cons_self _ _, rfl, h0⟩
      · rw [if_neg hmm] at hm
        by_cases hab : (processLocale env baseDoc entry).2.2 = true
        · rw [if_pos hab] at hm
          exact Option.noConfusion hm
        · rw [if_neg hab] at hm
          obtain ⟨e, he, hec, het⟩ := ih code hm
          exact ⟨e, List.mem_cons_of_mem _ he, hec, het⟩

theorem countLocalesItems_go (locales : List TranslateLocaleEntry) :
    ∀ init : Nat,
      locales.foldl
        (fun total locale => total + countItems locale.chunks + countOverrides locale.overrides)
        init =
      init + (locales.map (fun e => countItems e.chunks + countOverrides e.overrides)).sum := by
  induction locales with
  | nil => intro init; simp
  | cons e rest ih =>
    intro init
    rw [List.foldl_cons, ih, List.map_cons, List.sum_cons]
    omega

theorem mem_le_sum_nat : ∀ (l : List Nat) (a : Nat), a ∈ l → a ≤ l.sum := by
  intro l
  induction l with
  | nil => intro a ha; cases ha
  | cons x xs ih =>
    intro a ha
    rcases List.mem_cons.mp ha with h | h
    · rw [h, List.sum_cons]; omega
    · have := ih a h
      rw [List.sum_cons]
      omega

theorem countOverrides_getD (o : Option (List TranslatableItem)) :
    countOverrides o = (o.getD []).length := by
  cases o <;> rfl

theorem entry_le_countLocalesItems (locales : List TranslateLocaleEntry)
    (e : TranslateLocaleEntry) (he : e ∈ locales) :
    countItems e.chunks + (e.overrides.getD []).length ≤ countLocalesItems locales := by
  have h1 : countLocalesItems locales =
      (locales.map (fun x => countItems x.chunks + countOverrides x.overrides)).sum := by
    simpa using countLocalesItems_go locales 0
  rw [h1, ← countOverrides_getD]
  exact mem_le_sum_nat _ _ (List.mem_map.mpr ⟨e, he, rfl⟩)

theorem streamLocalesGo_mismatch (env : StreamEnv) (baseDoc : Option JVal) :
    ∀ (locales : List TranslateLocaleEntry) (code : String),
      runMismatchEntry env baseDoc locales = some code →
      (locales.map (fun e => e.code)).Nodup →
      (streamLocalesGo env baseDoc locales).2.2 = true ∧
      errCount (streamLocalesGo env baseDoc locales).1 = 1 ∧
      appliedCount code (streamLocalesGo env baseDoc locales).1 = 0 ∧
      updatesFor code (streamLocalesGo env baseDoc locales).2.1 = [] := by
  intro locales
  induction locales with
  | nil => intro code hm _; exact Option.noConfusion hm
  | cons entry rest ih =>
    intro code hm hnd
    rw [List.map_cons, List.nodup_cons] at hnd
    obtain ⟨hnotin, hnd'⟩ := hnd
    simp only [runMismatchEntry] at hm
    by_cases h0 : countItems entry.chunks + (entry.overrides.getD []).length = 0
    · rw [if_pos h0] at hm
      obtain ⟨hab2, he2, ha2, hu2⟩ := ih code hm hnd'
      have hpl := processLocale_skip env baseDoc entry h0
      have habF : (processLocale env baseDoc entry).2.2 = false := by rw [hpl]
      obtain ⟨hE, hU, hA⟩ := streamLocalesGo_cons_ok env baseDoc entry rest habF
      refine ⟨by rw [hA]; exact hab2, ?_, ?_, ?_⟩
      · rw [hE, hpl]
        simpa using he2
      · rw [hE, hpl]
        simpa using ha2
      · rw [hU, hpl]
        simpa using hu2
    · rw [if_neg h0] at hm
      by_cases hmm : chunksMismatch env baseDoc entry.chunks = true
      · rw [if_pos hmm] at hm
        cases hm
        obtain ⟨hu0, habT, he1, ha1⟩ := processLocale_mismatch env baseDoc entry h0 hmm
        rw [streamLocalesGo_cons_abort env baseDoc entry rest habT]
        refine ⟨habT, he1, ha1 entry.code, ?_⟩
        rw [hu0]
        rfl
      · rw [if_neg hmm] at hm
        by_cases hab : (processLocale env baseDoc entry).2.2 = true
        · rw [if_pos hab] at hm
          exact Option.noConfusion hm
        · rw [if_neg hab] at hm
          have habF : (processLocale env baseDoc entry).2.2 = false := by
            simpa using hab
          obtain ⟨hab2, he2, ha2, hu2⟩ := ih code hm hnd'
          have hcode : code ≠ entry.code := by
            obtain ⟨e, he, hec, _⟩ := runMismatchEntry_mem env baseDoc rest code hm
            have hmemc : code ∈ rest.map (fun x => x.code) := by
              rw [← hec]
              exact List.mem_map.mpr ⟨e, he, rfl⟩
            intro hEq
            rw [hEq] at hmemc
            exact hnotin hmemc
          obtain ⟨hfe, hfa, hfu⟩ := processLocale_ok_counts env baseDoc entry code habF hcode
          obtain ⟨hE, hU, hA⟩ := streamLocalesGo_cons_ok env baseDoc entry rest habF
          refine ⟨by rw [hA]; exact hab2, ?_, ?_, ?_⟩
          · rw [hE, errCount_append, hfe, he2]
          · rw [hE, appliedCount_append, hfa, ha2]
          · rw [hU, updatesFor_append, hfu, hu2]
            rfl

/-- C1: whenever a run actually reaches a batch for which the translation
service returns a reply whose length differs from the number of texts sent
(`runMismatchEntry` names the locale of that batch: all earlier batches
succeed with matching lengths and all earlier locale entries complete), and
the requested locale codes are distinct, the stream carries exactly one
`error` event overall, no `applied` event for that locale, and no store
update is attempted for that locale.  (When composed with
`openAiTranslateTexts`, which silently returns the untranslated inputs on a
provider count mismatch, this guard is unreachable; the theorem is about
`streamTranslations` over its translator interface.) -/
theorem streamTranslations_mismatch_isolated
    (env : StreamEnv) (locales : List TranslateLocaleEntry)
    (base : Option JVal) (code : String)
    (hb : env.baseDoc = Except.ok base)
    (hm : runMismatchEntry env base locales = some code)
    (hnd : (locales.map (fun e => e.code)).Nodup) :
    errCount (streamTranslations env locales).1 = 1 ∧
    appliedCount code (streamTranslations env locales).1 = 0 ∧
    updatesFor code (streamTranslations env locales).2 = [] := by
  obtain ⟨e, hel, hec, het⟩ := runMismatchEntry_mem env base locales code hm
  have hne : ¬(locales.isEmpty = true) := by
    cases locales with
    | nil => cases hel
    | cons a l => simp
  have htot : ¬(countLocalesItems locales = 0) := by
    have hle := entry_le_countLocalesItems locales e hel
    omega
  obtain ⟨hab, he1, ha1, hu1⟩ := streamLocalesGo_mismatch env base locales code hm hnd
  simp only [streamTranslations, hb]
  rw [if_neg hne, if_neg htot, if_pos hab]
  exact ⟨he1, ha1, hu1⟩

/-- Witness for C1: one locale `"nl"` with a single plain-text item whose
translator replies with an empty list — the run yields one mismatch error,
no `applied` event and no update. -/
theorem streamTranslations_mismatch_isolated_witness :
    errCount (streamTranslations c1Env c1Locales).1 = 1 ∧
    appliedCount "nl" (streamTranslations c1Env c1Locales).1 = 0 ∧
    updatesFor "nl" (streamTranslations c1Env c1Locales).2 = [] :=
  streamTranslations_mismatch_isolated c1Env c1Locales none "nl" rfl (by decide) (by decide)

/-- Witness for C8: a run with one fragment and an identity translator yields
the suggestion list `[{index: 0, text: "Hello"}]`, which is clean. -/
theorem runReviewLocale_suggestions_clean_witness :
    (∀ s ∈ ((⟨"nl", 0, [], some [⟨0, "Hello"⟩], [0]⟩ :
        TranslateReviewLocale).suggestions.getD []), jsTrim s.text ≠ "") ∧
    (((⟨"nl", 0, [], some [⟨0, "Hello"⟩], [0]⟩ :
        TranslateReviewLocale).suggestions.getD []).map (fun s => s.index)).Nodup ∧
    (∀ s ∈ ((⟨"nl", 0, [], some [⟨0, "Hello"⟩], [0]⟩ :
        TranslateReviewLocale).suggestions.getD []),
      s.index ∈ (⟨"nl", 0, [], some [⟨0, "Hello"⟩], [0]⟩ :
        TranslateReviewLocale).translateIndexes) :=
  runReviewLocale_suggestions_clean (fun _ => Except.ok [])
    (fun xs => Except.ok xs) "nl" none [⟨false, "title", "Hello"⟩]
    ⟨"nl", 0, [], some [⟨0, "Hello"⟩], [0]⟩ rfl

end SyncAI
